import Mathlib

/-!
Verification of the schedulr CPU-scheduling engine.

The definitions below are a shallow embedding of
`src/utils/schedulingAlgorithms.ts` (the policy engine) and of the
validation/dispatch logic of the `CPUScheduler` component (`runScheduler`).

Number representation: the caller preconditions fix `arrivalTime : ℤ≥0` and
`burstTime : ℤ>0`, and every arithmetic operation performed by the engine on
these inputs stays within the integers, where JavaScript float arithmetic is
exact.  We therefore embed clock values as `Nat` (arrival/burst/start/end are
never negative) and derived metrics as `Int` (they are computed by
subtraction).  The two floating-point averages are embedded as `Option Rat`:
`some` of the exact quotient, and `none` standing for the `NaN` produced by
JavaScript's `0 / 0` on an empty metrics list.

The `while` loops of SJF, Priority and Round-Robin are embedded with an
explicit iteration budget ("fuel") and an `Option` result: `none` means the
budget was exhausted, i.e. the source loop has not finished within that many
iterations.  The budgets passed by the top-level functions are proved
sufficient under the documented caller preconditions, so on those inputs the
embedding computes exactly what the JavaScript loop computes; on inputs where
the JavaScript loop never terminates (duplicate ids for SJF/Priority,
quantum 0 for Round-Robin) the loop embedding returns `none` for every fuel,
which is how non-termination is stated.
-/

namespace Schedulr

/-- Process: the immutable input record (`@/types/scheduler`).  `priority` is
optional; the engine's comparisons treat a missing priority as `Infinity`. -/
structure Process where
  id : String
  arrivalTime : Nat
  burstTime : Nat
  priority : Option Int := none
deriving DecidableEq

/-- ExecutionBlock: one timeline entry, the half-open interval
`[startTime, endTime)` of CPU given to `processId`. -/
structure ExecutionBlock where
  processId : String
  startTime : Nat
  endTime : Nat
deriving DecidableEq

/-- ProcessMetrics: per-process output record, pushed when a process
completes. -/
structure ProcessMetrics where
  id : String
  arrivalTime : Nat
  burstTime : Nat
  completionTime : Nat
  turnaroundTime : Int
  waitingTime : Int
  priority : Option Int
deriving DecidableEq

/-- SchedulingResult: the single structure every policy returns. -/
structure SchedulingResult where
  executionOrder : List ExecutionBlock
  processMetrics : List ProcessMetrics
  averageWaitingTime : Option Rat
  averageTurnaroundTime : Option Rat
deriving DecidableEq

/-- Simulation view of a process: the input record plus the mutable
`remainingTime` the engines decrement. -/
structure SimProcess extends Process where
  remainingTime : Nat
deriving DecidableEq

/-- The `{ ...p, remainingTime: p.burstTime }` copy made at the start of each
run. -/
def initSim (p : Process) : SimProcess :=
  { p with remainingTime := p.burstTime }

/-- calculateAverages (schedulingAlgorithms.ts lines 199-209): arithmetic
means of waiting and turnaround times; on an empty metrics list the source
divides 0 by 0, producing the float NaN, embedded here as `none`. -/
def calculateAverages (executionOrder : List ExecutionBlock)
    (processMetrics : List ProcessMetrics) : SchedulingResult :=
  { executionOrder := executionOrder
    processMetrics := processMetrics
    averageWaitingTime :=
      if processMetrics.length = 0 then none
      else some ((((processMetrics.map (·.waitingTime)).sum : Int) : Rat) /
        (processMetrics.length : Rat))
    averageTurnaroundTime :=
      if processMetrics.length = 0 then none
      else some ((((processMetrics.map (·.turnaroundTime)).sum : Int) : Rat) /
        (processMetrics.length : Rat)) }

/-- Stable insertion of a process into a list already sorted by arrival time:
`p` goes in front of the first element whose arrival time is `≥` its own. -/
def insertByArrival (p : Process) : List Process → List Process
  | [] => [p]
  | q :: qs =>
    if p.arrivalTime ≤ q.arrivalTime then p :: q :: qs
    else q :: insertByArrival p qs

/-- The `[...processes].sort((a, b) => a.arrivalTime - b.arrivalTime)` call.
JavaScript's `Array.prototype.sort` is stable, so it is embedded as a stable
(insertion) sort by ascending arrival time. -/
def sortByArrival : List Process → List Process
  | [] => []
  | p :: ps => insertByArrival p (sortByArrival ps)

/-- The body of the `forEach` in scheduleFCFS (lines 10-31): run each process
of the sorted list uninterrupted from `max(currentTime, arrivalTime)`. -/
def fcfsGo (t : Nat) : List Process → List ExecutionBlock × List ProcessMetrics
  | [] => ([], [])
  | p :: ps =>
    let startTime := max t p.arrivalTime
    let endTime := startTime + p.burstTime
    let rest := fcfsGo endTime ps
    (⟨p.id, startTime, endTime⟩ :: rest.1,
     ⟨p.id, p.arrivalTime, p.burstTime, endTime,
      (endTime : Int) - (p.arrivalTime : Int),
      (startTime : Int) - (p.arrivalTime : Int), p.priority⟩ :: rest.2)

/-- scheduleFCFS (lines 3-34). -/
def scheduleFCFS (processes : List Process) : SchedulingResult :=
  let r := fcfsGo 0 (sortByArrival processes)
  calculateAverages r.1 r.2

/-- JavaScript `Array.prototype.reduce` with no initial value: the first
element seeds the fold. -/
def reduce1 {α : Type} (f : α → α → α) : α → List α → α
  | a, [] => a
  | a, x :: xs => reduce1 f (f a x) xs

/-- The `remainingProcesses.filter(p => p.arrivalTime <= currentTime &&
!completedProcesses.has(p.id))` step shared by scheduleSJF and
schedulePriority. -/
def availableOf (sim : List SimProcess) (t : Nat) (completed : List String) :
    List SimProcess :=
  sim.filter (fun p => decide (p.arrivalTime ≤ t) && !(completed.contains p.id))

/-- The `availableProcesses.reduce` of scheduleSJF (lines 55-57): keep the
current minimum unless a strictly smaller burst appears, so the first process
with the minimal burst time wins ties. -/
def selSJF (hd : SimProcess) (tl : List SimProcess) : SimProcess :=
  reduce1 (fun mn cur => if cur.burstTime < mn.burstTime then cur else mn) hd tl

/-- The `currentPriority < minPriority` comparison of schedulePriority
(lines 104-108), where a missing priority is `?? Infinity`. -/
def ltPriorityOpt (a b : Option Int) : Bool :=
  match a, b with
  | some x, some y => decide (x < y)
  | some _, none => true
  | none, _ => false

/-- The `availableProcesses.reduce` of schedulePriority (lines 104-108). -/
def selPriority (hd : SimProcess) (tl : List SimProcess) : SimProcess :=
  reduce1 (fun mn cur => if ltPriorityOpt cur.priority mn.priority then cur else mn)
    hd tl

/-- The shared `while (completedProcesses.size < processes.length)` loop of
scheduleSJF (lines 44-80) and schedulePriority (lines 93-131); the two source
functions are verbatim copies except for the `reduce` selector, passed here as
`sel`.  The completed set is embedded as a duplicate-free list (elements are
only inserted when absent, which matches `Set` semantics), and `fuel` bounds
the number of loop iterations; `none` reports fuel exhaustion, i.e. that the
source loop has not terminated within `fuel` iterations. -/
def npLoop (sel : SimProcess → List SimProcess → SimProcess)
    (sim : List SimProcess) :
    Nat → Nat → List String → List ExecutionBlock → List ProcessMetrics →
    Option (List ExecutionBlock × List ProcessMetrics)
  | 0, _, _, _, _ => none
  | fuel + 1, t, completed, eo, pm =>
    if completed.length < sim.length then
      match availableOf sim t completed with
      | [] => npLoop sel sim fuel (t + 1) completed eo pm
      | hd :: tl =>
        let sj := sel hd tl
        let endTime := t + sj.burstTime
        npLoop sel sim fuel endTime (completed ++ [sj.id])
          (eo ++ [⟨sj.id, t, endTime⟩])
          (pm ++ [⟨sj.id, sj.arrivalTime, sj.burstTime, endTime,
            (endTime : Int) - (sj.arrivalTime : Int),
            (t : Int) - (sj.arrivalTime : Int), sj.priority⟩])
    else some (eo, pm)

/-- Largest arrival time in a process list (0 when empty). -/
def maxArrival (procs : List Process) : Nat :=
  (procs.map (·.arrivalTime)).foldr max 0

/-- Iteration budget for the non-preemptive loops: at most `length` completing
iterations and at most `maxArrival` idle ticks occur, see `npLoop_ok`. -/
def npFuel (procs : List Process) : Nat :=
  procs.length + maxArrival procs + 2

/-- scheduleSJF (lines 36-83).  The `none` fallback is unreachable whenever
the source loop terminates (proved under the caller preconditions). -/
def scheduleSJF (processes : List Process) : SchedulingResult :=
  match npLoop selSJF (processes.map initSim) (npFuel processes) 0 [] [] [] with
  | some (eo, pm) => calculateAverages eo pm
  | none => calculateAverages [] []

/-- schedulePriority (lines 85-134).  Note the source declaration takes only
the process list: the `reversePriority` argument supplied by its caller
(`CPUScheduler`, part_000 line 72) is not a parameter and is silently
dropped. -/
def schedulePriority (processes : List Process) : SchedulingResult :=
  match npLoop selPriority (processes.map initSim) (npFuel processes) 0 [] [] [] with
  | some (eo, pm) => calculateAverages eo pm
  | none => calculateAverages [] []

/-- The two `while (processIndex < processQueue.length && ...arrivalTime <=
currentTime)` enqueue loops of scheduleRoundRobin (lines 150-153 and
174-178): move every already-arrived process from the pending suffix of the
sorted input to the back of the ready queue.  The pair `(processQueue,
processIndex)` is embedded as the pending suffix `processQueue.drop
processIndex`. -/
def enqueueArrived (t : Nat) :
    List SimProcess → List SimProcess → List SimProcess × List SimProcess
  | [], rq => ([], rq)
  | p :: ps, rq =>
    if p.arrivalTime ≤ t then enqueueArrived t ps (rq ++ [p])
    else (p :: ps, rq)

/-- The `while (processIndex < processQueue.length || readyQueue.length > 0)`
loop of scheduleRoundRobin (lines 148-194), with an explicit iteration
budget as in `npLoop`. -/
def rrLoop (q : Nat) :
    Nat → List SimProcess → List SimProcess → Nat → List ExecutionBlock →
    List ProcessMetrics → Option (List ExecutionBlock × List ProcessMetrics)
  | 0, _, _, _, _, _ => none
  | fuel + 1, pending, rq, t, eo, pm =>
    if pending.isEmpty && rq.isEmpty then some (eo, pm)
    else
      match enqueueArrived t pending rq with
      | (pending₁, []) => rrLoop q fuel pending₁ [] (t + 1) eo pm
      | (pending₁, cur :: rest) =>
        let e := min q cur.remainingTime
        let endTime := t + e
        let eo₁ := eo ++ [⟨cur.id, t, endTime⟩]
        let cur₁ : SimProcess := { cur with remainingTime := cur.remainingTime - e }
        let next := enqueueArrived endTime pending₁ rest
        if 0 < cur₁.remainingTime then
          rrLoop q fuel next.1 (next.2 ++ [cur₁]) endTime eo₁ pm
        else
          rrLoop q fuel next.1 next.2 endTime eo₁
            (pm ++ [⟨cur.id, cur.arrivalTime, cur.burstTime, endTime,
              (endTime : Int) - (cur.arrivalTime : Int),
              (endTime : Int) - (cur.arrivalTime : Int) - (cur.burstTime : Int),
              cur.priority⟩])

/-- Iteration budget for the Round-Robin loop: with a positive quantum every
running iteration consumes at least one unit of remaining time and every idle
iteration advances the clock below `maxArrival`, see `rrLoop_ok`. -/
def rrFuel (procs : List Process) : Nat :=
  (procs.map (·.burstTime)).sum + maxArrival procs + 2

/-- scheduleRoundRobin (lines 136-197): sort by arrival (stable), give each
dequeued head `min(timeQuantum, remainingTime)` units, enqueue arrivals
before re-enqueueing the preempted process.  A quantum of `0` embeds the
"quantum ≤ 0" inputs on which the source loop never terminates; on those the
loop reports fuel exhaustion for every budget. -/
def scheduleRoundRobin (processes : List Process) (timeQuantum : Nat) :
    SchedulingResult :=
  match rrLoop timeQuantum (rrFuel processes)
      ((sortByArrival processes).map initSim) [] 0 [] [] with
  | some (eo, pm) => calculateAverages eo pm
  | none => calculateAverages [] []

/-- Eligibility filter shared by the preemptive policies: arrived and not yet
finished at tick `t`. -/
def srtfElig (sim : List SimProcess) (t : Nat) : List SimProcess :=
  sim.filter (fun p => decide (p.arrivalTime ≤ t) && decide (0 < p.remainingTime))

/-- First process with minimal remaining time (ties keep the earlier one). -/
def firstMinRem (hd : SimProcess) (tl : List SimProcess) : SimProcess :=
  reduce1 (fun mn cur => if cur.remainingTime < mn.remainingTime then cur else mn)
    hd tl

/-- Modelled from the spec: the repository imports `scheduleSRTF` from the
algorithms module (part_000 line 9) but its definition is missing from src, so
the selection rule is taken from spec §4.4: among arrived unfinished
processes pick the smallest `remainingTime`, the currently running process
winning ties, otherwise first input order. -/
def srtfPick (sim : List SimProcess) (t : Nat) (running : Option String) :
    Option SimProcess :=
  match srtfElig sim t with
  | [] => none
  | hd :: tl =>
    let m := firstMinRem hd tl
    match running with
    | none => some m
    | some rid =>
      match (srtfElig sim t).find? (fun p => p.id == rid) with
      | none => some m
      | some r => if m.remainingTime < r.remainingTime then some m else some r

/-- Extend the last timeline block by one tick when the same process keeps
running, otherwise open a new block `[t, t+1)`; this accumulates one block
per maximal slice, as spec §4.4 describes. -/
def appendTick (eo : List ExecutionBlock) (pid : String) (t : Nat) :
    List ExecutionBlock :=
  match eo.getLast? with
  | some b =>
    if b.processId = pid ∧ b.endTime = t then
      eo.dropLast ++ [{ b with endTime := t + 1 }]
    else eo ++ [⟨pid, t, t + 1⟩]
  | none => [⟨pid, t, t + 1⟩]

/-- Modelled from the spec: tick-driven loop of the preemptive policies
(spec §4.4 and §4.6; the source of `scheduleSRTF` and
`schedulePriorityPreemptive` is missing from src).  Each tick the `pick`
rule chooses who runs; the chosen process runs one tick, its final metrics
being emitted when its remaining time reaches zero. -/
def preemptiveLoop (pick : List SimProcess → Nat → Option String → Option SimProcess) :
    Nat → List SimProcess → Nat → Option String → List ExecutionBlock →
    List ProcessMetrics → Option (List ExecutionBlock × List ProcessMetrics)
  | 0, _, _, _, _, _ => none
  | fuel + 1, sim, t, running, eo, pm =>
    if sim.all (fun p => p.remainingTime == 0) then some (eo, pm)
    else
      match pick sim t running with
      | none => preemptiveLoop pick fuel sim (t + 1) none eo pm
      | some c =>
        let sim' := sim.map (fun p =>
          if p.id == c.id then { p with remainingTime := p.remainingTime - 1 } else p)
        let eo' := appendTick eo c.id t
        if c.remainingTime = 1 then
          preemptiveLoop pick fuel sim' (t + 1) none eo'
            (pm ++ [⟨c.id, c.arrivalTime, c.burstTime, t + 1,
              ((t : Int) + 1) - (c.arrivalTime : Int),
              ((t : Int) + 1) - (c.arrivalTime : Int) - (c.burstTime : Int),
              c.priority⟩])
        else preemptiveLoop pick fuel sim' (t + 1) (some c.id) eo' pm

/-- Modelled from the spec: scheduleSRTF (spec §4.4), absent from src. -/
def scheduleSRTF (processes : List Process) : SchedulingResult :=
  match preemptiveLoop srtfPick (rrFuel processes) (processes.map initSim)
      0 none [] [] with
  | some (eo, pm) => calculateAverages eo pm
  | none => calculateAverages [] []

/-- Modelled from the spec: strict "better priority" comparison of §4.5/§4.6.
With `rev = false` a smaller number is better, with `rev = true` a larger one;
a missing priority is worst under both conventions. -/
def betterPriority (rev : Bool) (a b : Option Int) : Bool :=
  match a, b with
  | some x, some y => if rev then decide (y < x) else decide (x < y)
  | some _, none => true
  | none, _ => false

/-- First process with the best priority (ties keep the earlier one). -/
def firstBestPriority (rev : Bool) (hd : SimProcess) (tl : List SimProcess) :
    SimProcess :=
  reduce1 (fun mn cur =>
    if betterPriority rev cur.priority mn.priority then cur else mn) hd tl

/-- Modelled from the spec: preemptive-priority selection (spec §4.6; the
source of `schedulePriorityPreemptive` is missing from src): preempt exactly
when a strictly better priority is eligible, ties favouring the running
process. -/
def ppPick (rev : Bool) (sim : List SimProcess) (t : Nat)
    (running : Option String) : Option SimProcess :=
  match srtfElig sim t with
  | [] => none
  | hd :: tl =>
    let m := firstBestPriority rev hd tl
    match running with
    | none => some m
    | some rid =>
      match (srtfElig sim t).find? (fun p => p.id == rid) with
      | none => some m
      | some r =>
        if betterPriority rev m.priority r.priority then some m else some r

/-- Modelled from the spec: schedulePriorityPreemptive (spec §4.6), absent
from src. -/
def schedulePriorityPreemptive (processes : List Process)
    (reversePriority : Bool) : SchedulingResult :=
  match preemptiveLoop (ppPick reversePriority) (rrFuel processes)
      (processes.map initSim) 0 none [] [] with
  | some (eo, pm) => calculateAverages eo pm
  | none => calculateAverages [] []

/-- Closed enumeration of the policy identifiers of `@/types/scheduler`. -/
inductive SchedulingAlgorithm
  | FCFS | SJF | SRTF | Priority | PriorityP | RoundRobin
deriving DecidableEq

/-- Validation and dispatch of `runScheduler` in `CPUScheduler`
(part_000 lines 34-91): an empty process set and a missing priority for the
priority policies are rejected before any engine is invoked (the destructive
toasts are embedded as `Except.error` values); everything else is forwarded
to the engine unchecked.  Line 72 calls `schedulePriority(processes,
reversePriority)`, but the engine declaration takes only the process list,
so the flag is dropped there. -/
def runScheduler (processes : List Process) (algorithm : SchedulingAlgorithm)
    (timeQuantum : Nat) (reversePriority : Bool) :
    Except String SchedulingResult :=
  if processes.length = 0 then Except.error "No Processes"
  else
    match algorithm with
    | .FCFS => Except.ok (scheduleFCFS processes)
    | .SJF => Except.ok (scheduleSJF processes)
    | .SRTF => Except.ok (scheduleSRTF processes)
    | .Priority =>
      if processes.any (fun p => p.priority.isNone) then
        Except.error "Missing Priority"
      else Except.ok (schedulePriority processes)
    | .PriorityP =>
      if processes.any (fun p => p.priority.isNone) then
        Except.error "Missing Priority"
      else Except.ok (schedulePriorityPreemptive processes reversePriority)
    | .RoundRobin => Except.ok (scheduleRoundRobin processes timeQuantum)

/-- The SJF loop terminates on `procs` when some iteration budget suffices. -/
def sjfTerminates (procs : List Process) : Prop :=
  ∃ fuel, (npLoop selSJF (procs.map initSim) fuel 0 [] [] []).isSome

/-- The cooperative Priority loop terminates on `procs` when some iteration
budget suffices. -/
def priorityTerminates (procs : List Process) : Prop :=
  ∃ fuel, (npLoop selPriority (procs.map initSim) fuel 0 [] [] []).isSome

/-- The Round-Robin loop terminates on `procs` with quantum `q` when some
iteration budget suffices. -/
def rrTerminates (procs : List Process) (q : Nat) : Prop :=
  ∃ fuel,
    (rrLoop q fuel ((sortByArrival procs).map initSim) [] 0 [] []).isSome

/-- The default three-process workload of `CPUScheduler` (part_000 lines
17-21), which is also the process set of every worked example in the spec. -/
def exampleProcs : List Process :=
  [⟨"P1", 0, 4, some 2⟩, ⟨"P2", 1, 3, some 1⟩, ⟨"P3", 2, 1, some 3⟩]

/-- A process set with a duplicated id, violating the uniqueness
precondition. -/
def dupIdProcs : List Process :=
  [⟨"A", 0, 1, some 1⟩, ⟨"A", 0, 2, some 1⟩]

/-- Duration of an execution block, `endTime - startTime`, as stated by the
spec's conservation invariant. -/
def durInt (b : ExecutionBlock) : Int := (b.endTime : Int) - (b.startTime : Int)

/-- Total CPU time the timeline gives to process `pid`. -/
def sumDur (pid : String) (eo : List ExecutionBlock) : Int :=
  ((eo.filter (fun b => b.processId == pid)).map durInt).sum

/-- The timeline is listed in non-decreasing `startTime` order. -/
def startSorted (eo : List ExecutionBlock) : Prop :=
  List.Pairwise (fun a b => a.startTime ≤ b.startTime) eo

/-- The blocks of the timeline are pairwise non-overlapping (half-open
intervals). -/
def overlapFree (eo : List ExecutionBlock) : Prop :=
  List.Pairwise (fun a b => a.endTime ≤ b.startTime ∨ b.endTime ≤ a.startTime) eo

/-- The per-process metric contract: non-negative waiting time, turnaround at
least the burst, completion no earlier than `arrival + burst`, and the two
defining equations of turnaround and waiting time. -/
def MetricsOK (m : ProcessMetrics) : Prop :=
  0 ≤ m.waitingTime ∧ (m.burstTime : Int) ≤ m.turnaroundTime ∧
  (m.arrivalTime : Int) + (m.burstTime : Int) ≤ (m.completionTime : Int) ∧
  m.turnaroundTime = (m.completionTime : Int) - (m.arrivalTime : Int) ∧
  m.waitingTime = m.turnaroundTime - (m.burstTime : Int)

/-- Loop invariant on a partial timeline at clock `t`: consecutive blocks do
not regress, every block is well formed, and every block ends by `t`. -/
def TLinv (t : Nat) (eo : List ExecutionBlock) : Prop :=
  List.Chain' (fun a b => a.endTime ≤ b.startTime) eo ∧
  ∀ b ∈ eo, b.startTime ≤ b.endTime ∧ b.endTime ≤ t

/-- The caller preconditions stated by the spec (§6): non-empty process set,
unique ids, positive bursts, positive quantum.  Arrival times are
non-negative by the `Nat` embedding. -/
def Preconds (procs : List Process) (q : Nat) : Prop :=
  procs ≠ [] ∧ (procs.map (·.id)).Nodup ∧ (∀ p ∈ procs, 0 < p.burstTime) ∧ 1 ≤ q

instance (procs : List Process) (q : Nat) : Decidable (Preconds procs q) := by
  unfold Preconds
  infer_instance

/-- The conservation and ordering invariants claimed for a result: per-process
block durations sum to the burst time, and the timeline is non-overlapping
and sorted by start time. -/
def goodResult (procs : List Process) (r : SchedulingResult) : Prop :=
  (∀ p ∈ procs, sumDur p.id r.executionOrder = (p.burstTime : Int)) ∧
  overlapFree r.executionOrder ∧ startSorted r.executionOrder

/-- Every metrics entry of the result satisfies `MetricsOK`. -/
def metricsAllOK (r : SchedulingResult) : Prop :=
  ∀ m ∈ r.processMetrics, MetricsOK m

/-- The averages of the result are the arithmetic means of its metrics
(`none`, the NaN sentinel, exactly when the metrics list is empty). -/
def meansOK (r : SchedulingResult) : Prop :=
  r.averageWaitingTime =
    (if r.processMetrics.length = 0 then none
     else some ((((r.processMetrics.map (·.waitingTime)).sum : Int) : Rat) /
       (r.processMetrics.length : Rat))) ∧
  r.averageTurnaroundTime =
    (if r.processMetrics.length = 0 then none
     else some ((((r.processMetrics.map (·.turnaroundTime)).sum : Int) : Rat) /
       (r.processMetrics.length : Rat)))

/-- Largest arrival time in a simulation list (0 when empty). -/
def maxArrivalSim (sim : List SimProcess) : Nat :=
  (sim.map (·.arrivalTime)).foldr max 0

/-- Total remaining time of a simulation list. -/
def remSum (l : List SimProcess) : Nat := (l.map (·.remainingTime)).sum

/-- Loop invariant of the shared non-preemptive loop (scheduleSJF and
schedulePriority): the completed set is duplicate-free and only mentions
input ids, the partial timeline is well formed and bounded by the clock, a
completed process has received exactly its burst and an uncompleted one
nothing, and every emitted metric satisfies its contract. -/
def NPInv (sim : List SimProcess) (t : Nat) (completed : List String)
    (eo : List ExecutionBlock) (pm : List ProcessMetrics) : Prop :=
  completed.Nodup ∧ (∀ i ∈ completed, i ∈ sim.map (·.id)) ∧ TLinv t eo ∧
  (∀ p ∈ sim,
    sumDur p.id eo = if p.id ∈ completed then (p.burstTime : Int) else 0) ∧
  (∀ m ∈ pm, MetricsOK m)

/-- Loop invariant of the Round-Robin loop over the sorted initial queue
`pq₀`: pending processes are untouched input entries, ready-queue entries
carry consistent bookkeeping between their remaining time, the timeline and
the clock, emitted metrics are final and satisfy their contract, the three
groups partition the input ids, and the partial timeline is well formed. -/
def RRInv (pq₀ pending rq : List SimProcess) (t : Nat)
    (eo : List ExecutionBlock) (pm : List ProcessMetrics) : Prop :=
  (∀ p ∈ pending, p ∈ pq₀ ∧ sumDur p.id eo = 0) ∧
  (∀ p ∈ rq,
    (∃ p₀ ∈ pq₀, p.id = p₀.id ∧ p.burstTime = p₀.burstTime) ∧
    p.arrivalTime ≤ t ∧ 0 < p.remainingTime ∧
    p.remainingTime ≤ p.burstTime ∧
    sumDur p.id eo = (p.burstTime : Int) - (p.remainingTime : Int) ∧
    p.arrivalTime + (p.burstTime - p.remainingTime) ≤ t) ∧
  (∀ m ∈ pm, MetricsOK m ∧ sumDur m.id eo = (m.burstTime : Int) ∧
    ∃ p₀ ∈ pq₀, m.id = p₀.id ∧ m.burstTime = p₀.burstTime) ∧
  List.Perm (pending.map (·.id) ++ rq.map (·.id) ++ pm.map (·.id))
    (pq₀.map (·.id)) ∧
  TLinv t eo

/-- Conclusion bundle of claim C1: the conservation and ordering invariants
for all four implemented policies. -/
def C1Concl (procs : List Process) (q : Nat) : Prop :=
  goodResult procs (scheduleFCFS procs) ∧ goodResult procs (scheduleSJF procs) ∧
  goodResult procs (schedulePriority procs) ∧
  goodResult procs (scheduleRoundRobin procs q)

/-- Conclusion bundle of claim C2: the metric contract for all four
implemented policies. -/
def C2Concl (procs : List Process) (q : Nat) : Prop :=
  metricsAllOK (scheduleFCFS procs) ∧ metricsAllOK (scheduleSJF procs) ∧
  metricsAllOK (schedulePriority procs) ∧
  metricsAllOK (scheduleRoundRobin procs q)

/-- Conclusion bundle of claim C9: averages are arithmetic means for all four
implemented policies, and on the empty process set every average is the NaN
sentinel. -/
def C9Concl (procs : List Process) (q : Nat) : Prop :=
  meansOK (scheduleFCFS procs) ∧ meansOK (scheduleSJF procs) ∧
  meansOK (schedulePriority procs) ∧ meansOK (scheduleRoundRobin procs q) ∧
  meansOK (scheduleSRTF procs) ∧
  (∀ rev : Bool, meansOK (schedulePriorityPreemptive procs rev)) ∧
  (scheduleFCFS []).averageWaitingTime = none ∧
  (scheduleFCFS []).averageTurnaroundTime = none ∧
  (scheduleSJF []).averageWaitingTime = none ∧
  (scheduleSJF []).averageTurnaroundTime = none ∧
  (schedulePriority []).averageWaitingTime = none ∧
  (schedulePriority []).averageTurnaroundTime = none ∧
  (scheduleRoundRobin [] q).averageWaitingTime = none ∧
  (scheduleRoundRobin [] q).averageTurnaroundTime = none ∧
  (scheduleSRTF []).averageWaitingTime = none ∧
  (scheduleSRTF []).averageTurnaroundTime = none ∧
  (∀ rev : Bool,
    (schedulePriorityPreemptive [] rev).averageWaitingTime = none ∧
    (schedulePriorityPreemptive [] rev).averageTurnaroundTime = none)

/-- Conclusion bundle of claim C10: the Round-Robin loop reaches its exit
condition within the computed budget (so the source loop terminates), every
process completes with exactly one metrics entry, and with quantum 0 no
budget is ever enough (the source loop never terminates). -/
def C10Concl (procs : List Process) (q : Nat) : Prop :=
  rrLoop q (rrFuel procs) ((sortByArrival procs).map initSim) [] 0 [] [] =
    some ((scheduleRoundRobin procs q).executionOrder,
      (scheduleRoundRobin procs q).processMetrics) ∧
  (scheduleRoundRobin procs q).processMetrics.length = procs.length ∧
  (∀ p ∈ procs,
    ((scheduleRoundRobin procs q).processMetrics.filter
      (fun m => m.id == p.id)).length = 1) ∧
  ¬ rrTerminates procs 0

/-! Basic lemmas about durations, timelines and lists. -/

theorem sumDur_nil (pid : String) : sumDur pid [] = 0 := rfl

theorem sumDur_append (pid : String) (eo : List ExecutionBlock)
    (b : ExecutionBlock) :
    sumDur pid (eo ++ [b]) =
      sumDur pid eo + (if b.processId = pid then durInt b else 0) := by
  by_cases h : b.processId = pid <;>
    simp [sumDur, List.filter_append, h]

theorem TLinv_nil (t : Nat) : TLinv t [] := ⟨List.chain'_nil, by simp⟩

theorem TLinv_mono {t u : Nat} {eo : List ExecutionBlock} (h : TLinv t eo)
    (htu : t ≤ u) : TLinv u eo :=
  ⟨h.1, fun b hb => ⟨(h.2 b hb).1, le_trans (h.2 b hb).2 htu⟩⟩

theorem TLinv_append {t s e : Nat} {eo : List ExecutionBlock} (pid : String)
    (h : TLinv t eo) (hts : t ≤ s) (hse : s ≤ e) :
    TLinv e (eo ++ [⟨pid, s, e⟩]) := by
  constructor
  · rw [List.chain'_append]
    refine ⟨h.1, List.chain'_singleton _, ?_⟩
    intro x hx y hy
    simp only [List.head?_cons, Option.mem_def, Option.some.injEq] at hy
    have hxeo : x ∈ eo := List.mem_of_mem_getLast? hx
    have := (h.2 x hxeo).2
    subst hy
    exact le_trans this hts
  · intro b hb
    rcases List.mem_append.1 hb with hb | hb
    · exact ⟨(h.2 b hb).1, le_trans (h.2 b hb).2 (le_trans hts hse)⟩
    · simp at hb
      subst hb
      exact ⟨hse, le_refl _⟩

theorem blocks_le_of_chain :
    ∀ (eo : List ExecutionBlock) (c : Nat),
      List.Chain' (fun a b => a.endTime ≤ b.startTime) eo →
      (∀ b ∈ eo, b.startTime ≤ b.endTime) →
      (∀ h ∈ eo.head?, c ≤ h.startTime) → ∀ x ∈ eo, c ≤ x.startTime := by
  intro eo
  induction eo with
  | nil => simp
  | cons a l ih =>
    intro c hch hwf hhd x hx
    have hca : c ≤ a.startTime := hhd a (by simp)
    rcases List.mem_cons.1 hx with rfl | hx'
    · exact hca
    · rcases (List.chain'_cons'.1 hch) with ⟨hrel, hch'⟩
      refine ih c hch' (fun b hb => hwf b (List.mem_cons_of_mem _ hb)) ?_ x hx'
      intro h hh
      have hal : a.endTime ≤ h.startTime := hrel h hh
      have : a.startTime ≤ a.endTime := hwf a (by simp)
      omega

theorem pairwise_blocks :
    ∀ eo : List ExecutionBlock,
      List.Chain' (fun a b => a.endTime ≤ b.startTime) eo →
      (∀ b ∈ eo, b.startTime ≤ b.endTime) →
      List.Pairwise
        (fun a b => a.endTime ≤ b.startTime ∧ a.startTime ≤ b.startTime) eo := by
  intro eo
  induction eo with
  | nil => intro _ _; exact List.Pairwise.nil
  | cons a l ih =>
    intro hch hwf
    rcases List.chain'_cons'.1 hch with ⟨hrel, hch'⟩
    have hwf' : ∀ b ∈ l, b.startTime ≤ b.endTime := fun b hb =>
      hwf b (List.mem_cons_of_mem _ hb)
    have hall : ∀ x ∈ l, a.endTime ≤ x.startTime :=
      blocks_le_of_chain l a.endTime hch' hwf' hrel
    refine List.Pairwise.cons (fun x hx => ⟨hall x hx, ?_⟩) (ih hch' hwf')
    have := hwf a (by simp)
    have := hall x hx
    omega

theorem pairwise_of_TLinv {t : Nat} {eo : List ExecutionBlock}
    (h : TLinv t eo) : overlapFree eo ∧ startSorted eo := by
  have hp := pairwise_blocks eo h.1 (fun b hb => (h.2 b hb).1)
  exact ⟨hp.imp (fun hx => Or.inl hx.1), hp.imp (fun hx => hx.2)⟩

theorem nodup_length_le {l₁ l₂ : List String} (h₁ : l₁.Nodup)
    (hsub : ∀ a ∈ l₁, a ∈ l₂) : l₁.length ≤ l₂.length := by
  calc l₁.length = l₁.toFinset.card := (List.toFinset_card_of_nodup h₁).symm
    _ ≤ l₂.toFinset.card :=
      Finset.card_le_card
        (fun a ha => List.mem_toFinset.2 (hsub a (List.mem_toFinset.1 ha)))
    _ ≤ l₂.length := List.toFinset_card_le l₂

theorem mem_of_nodup_ge {l₁ l₂ : List String} (h₁ : l₁.Nodup) (h₂ : l₂.Nodup)
    (hsub : ∀ a ∈ l₁, a ∈ l₂) (hlen : l₂.length ≤ l₁.length) :
    ∀ a ∈ l₂, a ∈ l₁ := by
  have hfin : l₁.toFinset = l₂.toFinset := by
    apply Finset.eq_of_subset_of_card_le
    · intro a ha
      exact List.mem_toFinset.2 (hsub a (List.mem_toFinset.1 ha))
    · rw [List.toFinset_card_of_nodup h₁, List.toFinset_card_of_nodup h₂]
      exact hlen
  intro a ha
  exact List.mem_toFinset.1 (hfin ▸ List.mem_toFinset.2 ha)

theorem mem_availableOf {sim : List SimProcess} {t : Nat}
    {completed : List String} {p : SimProcess} :
    p ∈ availableOf sim t completed ↔
      p ∈ sim ∧ p.arrivalTime ≤ t ∧ p.id ∉ completed := by
  simp [availableOf, List.mem_filter, and_assoc]

theorem reduce1_mem {α : Type} (f : α → α → α)
    (hf : ∀ a b, f a b = a ∨ f a b = b) :
    ∀ (l : List α) (a : α), reduce1 f a l ∈ a :: l := by
  intro l
  induction l with
  | nil => intro a; simp [reduce1]
  | cons x xs ih =>
    intro a
    have h := ih (f a x)
    rw [reduce1]
    rcases List.mem_cons.1 h with h1 | h1
    · rcases hf a x with h2 | h2 <;> rw [h1, h2] <;> simp
    · exact List.mem_cons_of_mem _ (List.mem_cons_of_mem _ h1)

theorem filter_id_singleton :
    ∀ {procs : List Process}, (procs.map (·.id)).Nodup →
      ∀ {p : Process}, p ∈ procs →
        procs.filter (fun x => x.id == p.id) = [p] := by
  intro procs
  induction procs with
  | nil => intro _ p hp; cases hp
  | cons a l ih =>
    intro hnd p hp
    simp only [List.map_cons, List.nodup_cons] at hnd
    rcases List.mem_cons.1 hp with rfl | hp'
    · have hnil : l.filter (fun x => x.id == p.id) = [] := by
        rw [List.filter_eq_nil_iff]
        intro x hx hbeq
        rw [beq_iff_eq] at hbeq
        exact hnd.1 (hbeq ▸ List.mem_map_of_mem (·.id) hx)
      simp [List.filter_cons, hnil]
    · have ha : (a.id == p.id) = false := by
        rw [beq_eq_false_iff_ne]
        intro h
        exact hnd.1 (h ▸ List.mem_map_of_mem (·.id) hp')
      rw [List.filter_cons]
      simp only [ha, Bool.false_eq_true, if_false]
      exact ih hnd.2 hp'

/-! Lemmas about the stable sort. -/

theorem insertByArrival_perm (p : Process) :
    ∀ l, List.Perm (insertByArrival p l) (p :: l) := by
  intro l
  induction l with
  | nil => simp [insertByArrival]
  | cons q qs ih =>
    by_cases h : p.arrivalTime ≤ q.arrivalTime
    · simp [insertByArrival, h]
    · rw [insertByArrival, if_neg h]
      exact (ih.cons q).trans (List.Perm.swap p q qs)

theorem sortByArrival_perm :
    ∀ procs, List.Perm (sortByArrival procs) procs := by
  intro procs
  induction procs with
  | nil => exact List.Perm.rfl
  | cons p ps ih =>
    exact (insertByArrival_perm p (sortByArrival ps)).trans (ih.cons p)

theorem insertByArrival_pairwise {p : Process} :
    ∀ {l : List Process},
      List.Pairwise (fun a b : Process => a.arrivalTime ≤ b.arrivalTime) l →
      List.Pairwise (fun a b : Process => a.arrivalTime ≤ b.arrivalTime)
        (insertByArrival p l) := by
  intro l
  induction l with
  | nil => intro _; simp [insertByArrival]
  | cons q qs ih =>
    intro h
    by_cases hpq : p.arrivalTime ≤ q.arrivalTime
    · rw [insertByArrival, if_pos hpq]
      refine List.Pairwise.cons ?_ h
      intro x hx
      rcases List.mem_cons.1 hx with rfl | hx'
      · exact hpq
      · exact le_trans hpq (List.rel_of_pairwise_cons h hx')
    · rw [insertByArrival, if_neg hpq]
      refine List.Pairwise.cons ?_ (ih (List.Pairwise.of_cons h))
      intro x hx
      have hx2 := (insertByArrival_perm p qs).mem_iff.1 hx
      rcases List.mem_cons.1 hx2 with rfl | hx'
      · omega
      · exact List.rel_of_pairwise_cons h hx'

theorem sortByArrival_pairwise :
    ∀ procs, List.Pairwise (fun a b : Process => a.arrivalTime ≤ b.arrivalTime)
      (sortByArrival procs) := by
  intro procs
  induction procs with
  | nil => exact List.Pairwise.nil
  | cons p ps ih => exact insertByArrival_pairwise ih

theorem insertByArrival_filter (p : Process) (a : Nat) :
    ∀ l : List Process,
      (insertByArrival p l).filter (fun x => x.arrivalTime == a) =
        if p.arrivalTime = a then
          p :: l.filter (fun x => x.arrivalTime == a)
        else l.filter (fun x => x.arrivalTime == a) := by
  intro l
  induction l with
  | nil => by_cases h : p.arrivalTime = a <;> simp [insertByArrival, h]
  | cons q qs ih =>
    by_cases hpq : p.arrivalTime ≤ q.arrivalTime
    · rw [insertByArrival, if_pos hpq]
      by_cases h : p.arrivalTime = a <;> simp [List.filter_cons, h]
    · rw [insertByArrival, if_neg hpq]
      by_cases h : p.arrivalTime = a
      · have hq : (q.arrivalTime == a) = false := by
          rw [beq_eq_false_iff_ne]; omega
        simp [List.filter_cons, hq, ih, h]
      · simp only [List.filter_cons, ih, if_neg h]

theorem sortByArrival_filter (a : Nat) :
    ∀ procs : List Process,
      (sortByArrival procs).filter (fun x => x.arrivalTime == a) =
        procs.filter (fun x => x.arrivalTime == a) := by
  intro procs
  induction procs with
  | nil => rfl
  | cons p ps ih =>
    rw [sortByArrival, insertByArrival_filter]
    by_cases h : p.arrivalTime = a
    · rw [if_pos h, ih, List.filter_cons_of_pos (by simp [h])]
    · rw [if_neg h, ih, List.filter_cons_of_neg (by simp [h])]

theorem le_maxArrival {procs : List Process} {p : Process} (hp : p ∈ procs) :
    p.arrivalTime ≤ maxArrival procs := by
  induction procs with
  | nil => cases hp
  | cons a l ih =>
    have : maxArrival (a :: l) = max a.arrivalTime (maxArrival l) := rfl
    rcases List.mem_cons.1 hp with rfl | hp'
    · rw [this]; exact le_max_left _ _
    · rw [this]; exact le_trans (ih hp') (le_max_right _ _)

theorem sumDur_cons (pid : String) (b : ExecutionBlock)
    (eo : List ExecutionBlock) :
    sumDur pid (b :: eo) =
      (if b.processId = pid then durInt b else 0) + sumDur pid eo := by
  by_cases h : b.processId = pid <;> simp [sumDur, List.filter_cons, h]

theorem calculateAverages_eo (eo : List ExecutionBlock)
    (pm : List ProcessMetrics) :
    (calculateAverages eo pm).executionOrder = eo := rfl

theorem calculateAverages_pm (eo : List ExecutionBlock)
    (pm : List ProcessMetrics) :
    (calculateAverages eo pm).processMetrics = pm := rfl

theorem meansOK_calc (eo : List ExecutionBlock) (pm : List ProcessMetrics) :
    meansOK (calculateAverages eo pm) := ⟨rfl, rfl⟩

/-! Lemmas about FCFS. -/

theorem fcfsGo_blocks :
    ∀ (procs : List Process) (t : Nat),
      List.Chain' (fun a b => a.endTime ≤ b.startTime) (fcfsGo t procs).1 ∧
      ∀ b ∈ (fcfsGo t procs).1, t ≤ b.startTime ∧ b.startTime ≤ b.endTime := by
  intro procs
  induction procs with
  | nil => intro t; exact ⟨List.chain'_nil, by simp [fcfsGo]⟩
  | cons p ps ih =>
    intro t
    have ihe := ih (max t p.arrivalTime + p.burstTime)
    constructor
    · simp only [fcfsGo]
      refine List.chain'_cons'.2 ⟨?_, ihe.1⟩
      intro y hy
      exact (ihe.2 y (List.mem_of_mem_head? hy)).1
    · simp only [fcfsGo]
      intro b hb
      rcases List.mem_cons.1 hb with rfl | hb'
      · exact ⟨le_max_left _ _, Nat.le_add_right _ _⟩
      · have h1 := (ihe.2 b hb').1
        have h2 := (ihe.2 b hb').2
        have h3 : t ≤ max t p.arrivalTime := le_max_left _ _
        omega

theorem fcfsGo_sum :
    ∀ (procs : List Process) (t : Nat) (pid : String),
      sumDur pid (fcfsGo t procs).1 =
        ((procs.filter (fun p => p.id == pid)).map
          (fun p => (p.burstTime : Int))).sum := by
  intro procs
  induction procs with
  | nil => intro t pid; rfl
  | cons p ps ih =>
    intro t pid
    simp only [fcfsGo, List.filter_cons, sumDur_cons]
    by_cases h : p.id = pid
    · simp only [if_pos h, beq_iff_eq, if_pos h, List.map_cons, List.sum_cons,
        ih]
      have : durInt ⟨p.id, max t p.arrivalTime,
          max t p.arrivalTime + p.burstTime⟩ = (p.burstTime : Int) := by
        simp [durInt]
      rw [this]
    · simp only [if_neg h, beq_iff_eq, if_neg h, ih, zero_add]

theorem fcfsGo_metrics :
    ∀ (procs : List Process) (t : Nat),
      ∀ m ∈ (fcfsGo t procs).2, MetricsOK m := by
  intro procs
  induction procs with
  | nil => intro t m hm; cases hm
  | cons p ps ih =>
    intro t m hm
    simp only [fcfsGo] at hm
    rcases List.mem_cons.1 hm with rfl | hm'
    · have harr : p.arrivalTime ≤ max t p.arrivalTime := le_max_right _ _
      refine ⟨?_, ?_, ?_, ?_, ?_⟩ <;> simp only [MetricsOK] <;> push_cast <;>
        omega
    · exact ih _ m hm'

theorem goodResult_FCFS {procs : List Process}
    (hnd : (procs.map (·.id)).Nodup) :
    goodResult procs (scheduleFCFS procs) := by
  refine ⟨?_, ?_⟩
  · intro p hp
    have hsum := fcfsGo_sum (sortByArrival procs) 0 p.id
    have hperm :=
      ((sortByArrival_perm procs).filter (fun x => x.id == p.id)).map
        (fun x : Process => (x.burstTime : Int))
    have hsingle : procs.filter (fun x => x.id == p.id) = [p] :=
      filter_id_singleton hnd hp
    have : (scheduleFCFS procs).executionOrder =
        (fcfsGo 0 (sortByArrival procs)).1 := rfl
    rw [this, hsum, hperm.sum_eq, hsingle]
    simp
  · have hb := fcfsGo_blocks (sortByArrival procs) 0
    have hp := pairwise_blocks _ hb.1 (fun b hbm => (hb.2 b hbm).2)
    have heq : (scheduleFCFS procs).executionOrder =
        (fcfsGo 0 (sortByArrival procs)).1 := rfl
    constructor
    · rw [overlapFree, heq]
      exact hp.imp (fun hx => Or.inl hx.1)
    · rw [startSorted, heq]
      exact hp.imp (fun hx => hx.2)

theorem metricsAllOK_FCFS (procs : List Process) :
    metricsAllOK (scheduleFCFS procs) := by
  intro m hm
  exact fcfsGo_metrics (sortByArrival procs) 0 m hm

/-! The shared non-preemptive loop. -/

theorem le_maxArrivalSim {sim : List SimProcess} {p : SimProcess}
    (hp : p ∈ sim) : p.arrivalTime ≤ maxArrivalSim sim := by
  induction sim with
  | nil => cases hp
  | cons a l ih =>
    have : maxArrivalSim (a :: l) = max a.arrivalTime (maxArrivalSim l) := rfl
    rcases List.mem_cons.1 hp with rfl | hp'
    · rw [this]; exact le_max_left _ _
    · rw [this]; exact le_trans (ih hp') (le_max_right _ _)

theorem maxArrivalSim_le {sim : List SimProcess} {M : Nat}
    (h : ∀ p ∈ sim, p.arrivalTime ≤ M) : maxArrivalSim sim ≤ M := by
  induction sim with
  | nil => exact Nat.zero_le M
  | cons a l ih =>
    have heq : maxArrivalSim (a :: l) = max a.arrivalTime (maxArrivalSim l) :=
      rfl
    rw [heq]
    exact max_le (h a (by simp))
      (ih (fun p hp => h p (List.mem_cons_of_mem _ hp)))

theorem npLoop_ok (sel : SimProcess → List SimProcess → SimProcess)
    (hsel : ∀ hd tl, sel hd tl ∈ hd :: tl)
    (sim : List SimProcess) (hid : (sim.map (·.id)).Nodup) :
    ∀ fuel t completed eo pm,
      NPInv sim t completed eo pm →
      sim.length - completed.length + (maxArrivalSim sim + 1 - t) < fuel →
      ∃ eo₂ pm₂,
        npLoop sel sim fuel t completed eo pm = some (eo₂, pm₂) ∧
        (∀ p ∈ sim, sumDur p.id eo₂ = (p.burstTime : Int)) ∧
        overlapFree eo₂ ∧ startSorted eo₂ ∧ ∀ m ∈ pm₂, MetricsOK m := by
  intro fuel
  induction fuel with
  | zero =>
    intro t c eo pm _ hF
    exact absurd hF (Nat.not_lt_zero _)
  | succ fuel ih =>
    intro t completed eo pm hinv hF
    obtain ⟨hcnd, hcsub, htl, hsum, hpm⟩ := hinv
    by_cases hguard : completed.length < sim.length
    · rw [npLoop, if_pos hguard]
      cases havail : availableOf sim t completed with
      | nil =>
        have hex : ∃ p ∈ sim, p.id ∉ completed := by
          by_contra hall
          push_neg at hall
          have hsub2 : ∀ a ∈ sim.map (·.id), a ∈ completed := by
            intro a ha
            obtain ⟨p, hp, rfl⟩ := List.mem_map.1 ha
            exact hall p hp
          have hlen := nodup_length_le hid hsub2
          rw [List.length_map] at hlen
          omega
        obtain ⟨p, hpsim, hpc⟩ := hex
        have harr : ¬ p.arrivalTime ≤ t := by
          intro hle
          have hmem : p ∈ availableOf sim t completed :=
            mem_availableOf.2 ⟨hpsim, hle, hpc⟩
          rw [havail] at hmem
          cases hmem
        have hmax : p.arrivalTime ≤ maxArrivalSim sim := le_maxArrivalSim hpsim
        refine ih (t + 1) completed eo pm
          ⟨hcnd, hcsub, TLinv_mono htl (Nat.le_succ _), hsum, hpm⟩ ?_
        omega
      | cons hd tl =>
        have hsj : sel hd tl ∈ availableOf sim t completed := by
          rw [havail]; exact hsel hd tl
        obtain ⟨hsim, harr, hnc⟩ := mem_availableOf.1 hsj
        refine ih (t + (sel hd tl).burstTime) (completed ++ [(sel hd tl).id])
          (eo ++ [⟨(sel hd tl).id, t, t + (sel hd tl).burstTime⟩])
          (pm ++ [⟨(sel hd tl).id, (sel hd tl).arrivalTime,
            (sel hd tl).burstTime, t + (sel hd tl).burstTime,
            ((t + (sel hd tl).burstTime : Nat) : Int) -
              ((sel hd tl).arrivalTime : Int),
            (t : Int) - ((sel hd tl).arrivalTime : Int),
            (sel hd tl).priority⟩]) ⟨?_, ?_, ?_, ?_, ?_⟩ ?_
        · rw [List.nodup_append]
          refine ⟨hcnd, List.nodup_singleton _, ?_⟩
          intro a ha hb
          simp only [List.mem_singleton] at hb
          subst hb
          exact hnc ha
        · intro i hi
          rcases List.mem_append.1 hi with hi | hi
          · exact hcsub i hi
          · simp only [List.mem_singleton] at hi
            subst hi
            exact List.mem_map_of_mem (·.id) hsim
        · exact TLinv_append _ htl (le_refl t) (Nat.le_add_right _ _)
        · intro p hp
          rw [sumDur_append]
          by_cases hpid : p.id = (sel hd tl).id
          · have hps : p = sel hd tl :=
              List.inj_on_of_nodup_map hid hp hsim hpid
            have hold := hsum p hp
            rw [if_neg (by rw [hpid]; exact hnc)] at hold
            rw [hold, zero_add, if_pos hpid.symm,
              if_pos (show p.id ∈ completed ++ [(sel hd tl).id] by
                simp [hpid])]
            subst hps
            simp only [durInt]
            push_cast
            ring
          · have hold := hsum p hp
            have hmem2 : (p.id ∈ completed ++ [(sel hd tl).id]) ↔
                p.id ∈ completed := by
              rw [List.mem_append]
              simp only [List.mem_singleton]
              exact ⟨fun h => h.elim id (fun h2 => absurd h2 hpid),
                fun h => Or.inl h⟩
            rw [if_neg (fun h => hpid h.symm), add_zero, hold]
            by_cases hc : p.id ∈ completed
            · rw [if_pos hc, if_pos (hmem2.2 hc)]
            · rw [if_neg hc, if_neg (fun h => hc (hmem2.1 h))]
        · intro m hm
          rcases List.mem_append.1 hm with hm | hm
          · exact hpm m hm
          · simp only [List.mem_singleton] at hm
            subst hm
            refine ⟨?_, ?_, ?_, ?_, ?_⟩ <;> push_cast <;> omega
        · have hlen : (completed ++ [(sel hd tl).id]).length =
              completed.length + 1 := by simp
          rw [hlen]
          omega
    · rw [npLoop, if_neg hguard]
      have hall : ∀ p ∈ sim, p.id ∈ completed := by
        intro p hp
        have hmlen : (sim.map (·.id)).length ≤ completed.length := by
          rw [List.length_map]
          omega
        exact mem_of_nodup_ge hcnd hid hcsub hmlen p.id
          (List.mem_map_of_mem (·.id) hp)
      refine ⟨eo, pm, rfl, ?_, ?_, ?_, hpm⟩
      · intro p hp
        have := hsum p hp
        rw [if_pos (hall p hp)] at this
        exact this
      · exact (pairwise_of_TLinv htl).1
      · exact (pairwise_of_TLinv htl).2

theorem selSJF_mem (hd : SimProcess) (tl : List SimProcess) :
    selSJF hd tl ∈ hd :: tl := by
  apply reduce1_mem
  intro a b
  by_cases h : b.burstTime < a.burstTime
  · right; simp [h]
  · left; simp [h]

theorem selPriority_mem (hd : SimProcess) (tl : List SimProcess) :
    selPriority hd tl ∈ hd :: tl := by
  apply reduce1_mem
  intro a b
  by_cases h : ltPriorityOpt b.priority a.priority = true
  · right; simp [h]
  · left; simp [h]

theorem map_id_initSim (procs : List Process) :
    (procs.map initSim).map (·.id) = procs.map (·.id) := by
  rw [List.map_map]
  rfl

theorem maxArrivalSim_initSim (procs : List Process) :
    maxArrivalSim (procs.map initSim) = maxArrival procs := by
  rw [maxArrivalSim, maxArrival, List.map_map]
  rfl

theorem NPInv_init (sim : List SimProcess) : NPInv sim 0 [] [] [] := by
  refine ⟨List.nodup_nil, by simp, TLinv_nil 0, ?_, by simp⟩
  intro p _
  rw [if_neg (List.not_mem_nil p.id)]
  rfl

theorem npSchedule_good (sel : SimProcess → List SimProcess → SimProcess)
    (hsel : ∀ hd tl, sel hd tl ∈ hd :: tl) {procs : List Process}
    (hnd : (procs.map (·.id)).Nodup) :
    ∃ eo₂ pm₂,
      npLoop sel (procs.map initSim) (npFuel procs) 0 [] [] [] =
        some (eo₂, pm₂) ∧
      (∀ p ∈ procs, sumDur p.id eo₂ = (p.burstTime : Int)) ∧
      overlapFree eo₂ ∧ startSorted eo₂ ∧ ∀ m ∈ pm₂, MetricsOK m := by
  have hid : ((procs.map initSim).map (·.id)).Nodup := by
    rw [map_id_initSim]; exact hnd
  have hF : (procs.map initSim).length - ([] : List String).length +
      (maxArrivalSim (procs.map initSim) + 1 - 0) < npFuel procs := by
    rw [List.length_map, maxArrivalSim_initSim, npFuel]
    omega
  obtain ⟨eo₂, pm₂, heq, hsums, hof, hss, hmet⟩ :=
    npLoop_ok sel hsel (procs.map initSim) hid (npFuel procs) 0 [] [] []
      (NPInv_init _) hF
  refine ⟨eo₂, pm₂, heq, ?_, hof, hss, hmet⟩
  intro p hp
  exact hsums (initSim p) (List.mem_map_of_mem initSim hp)

theorem goodResult_SJF {procs : List Process}
    (hnd : (procs.map (·.id)).Nodup) :
    goodResult procs (scheduleSJF procs) ∧ metricsAllOK (scheduleSJF procs) := by
  obtain ⟨eo₂, pm₂, heq, hsums, hof, hss, hmet⟩ :=
    npSchedule_good selSJF selSJF_mem hnd
  have hres : scheduleSJF procs = calculateAverages eo₂ pm₂ := by
    unfold scheduleSJF
    rw [heq]
  rw [hres]
  exact ⟨⟨hsums, hof, hss⟩, hmet⟩

theorem goodResult_Priority {procs : List Process}
    (hnd : (procs.map (·.id)).Nodup) :
    goodResult procs (schedulePriority procs) ∧
      metricsAllOK (schedulePriority procs) := by
  obtain ⟨eo₂, pm₂, heq, hsums, hof, hss, hmet⟩ :=
    npSchedule_good selPriority selPriority_mem hnd
  have hres : schedulePriority procs = calculateAverages eo₂ pm₂ := by
    unfold schedulePriority
    rw [heq]
  rw [hres]
  exact ⟨⟨hsums, hof, hss⟩, hmet⟩

theorem meansOK_FCFS (procs : List Process) : meansOK (scheduleFCFS procs) :=
  meansOK_calc _ _

theorem meansOK_SJF (procs : List Process) : meansOK (scheduleSJF procs) := by
  unfold scheduleSJF
  cases hnp : npLoop selSJF (procs.map initSim) (npFuel procs) 0 [] [] [] with
  | none => exact meansOK_calc [] []
  | some v =>
    obtain ⟨eo, pm⟩ := v
    exact meansOK_calc eo pm

theorem meansOK_Priority (procs : List Process) :
    meansOK (schedulePriority procs) := by
  unfold schedulePriority
  cases hnp : npLoop selPriority (procs.map initSim) (npFuel procs) 0 [] [] []
    with
  | none => exact meansOK_calc [] []
  | some v =>
    obtain ⟨eo, pm⟩ := v
    exact meansOK_calc eo pm

theorem meansOK_RR (procs : List Process) (q : Nat) :
    meansOK (scheduleRoundRobin procs q) := by
  unfold scheduleRoundRobin
  cases hnp : rrLoop q (rrFuel procs) ((sortByArrival procs).map initSim)
      [] 0 [] [] with
  | none => exact meansOK_calc [] []
  | some v =>
    obtain ⟨eo, pm⟩ := v
    exact meansOK_calc eo pm

/-! The Round-Robin loop. -/

theorem remSum_append (l₁ l₂ : List SimProcess) :
    remSum (l₁ ++ l₂) = remSum l₁ + remSum l₂ := by
  simp [remSum]

theorem remSum_cons (p : SimProcess) (l : List SimProcess) :
    remSum (p :: l) = p.remainingTime + remSum l := by
  simp [remSum]

theorem enqueueArrived_spec (t : Nat) :
    ∀ (pending rq : List SimProcess),
      ∃ moved,
        pending = moved ++ (enqueueArrived t pending rq).1 ∧
        (enqueueArrived t pending rq).2 = rq ++ moved ∧
        (∀ p ∈ moved, p.arrivalTime ≤ t) ∧
        ∀ hd, (enqueueArrived t pending rq).1.head? = some hd →
          ¬ hd.arrivalTime ≤ t := by
  intro pending
  induction pending with
  | nil =>
    intro rq
    refine ⟨[], by simp [enqueueArrived], by simp [enqueueArrived], by simp,
      ?_⟩
    intro hd h
    simp [enqueueArrived] at h
  | cons p ps ih =>
    intro rq
    by_cases h : p.arrivalTime ≤ t
    · obtain ⟨moved, h1, h2, h3, h4⟩ := ih (rq ++ [p])
      have he : enqueueArrived t (p :: ps) rq = enqueueArrived t ps (rq ++ [p]) := by
        rw [enqueueArrived, if_pos h]
      refine ⟨p :: moved, ?_, ?_, ?_, ?_⟩
      · rw [he, List.cons_append, ← h1]
      · rw [he, h2, List.append_assoc]
        rfl
      · intro x hx
        rcases List.mem_cons.1 hx with rfl | hx'
        · exact h
        · exact h3 x hx'
      · intro hd hhd
        rw [he] at hhd
        exact h4 hd hhd
    · have he : enqueueArrived t (p :: ps) rq = (p :: ps, rq) := by
        rw [enqueueArrived, if_neg h]
      refine ⟨[], by rw [he]; rfl, by rw [he]; simp, by simp, ?_⟩
      intro hd hhd
      rw [he] at hhd
      simp at hhd
      subst hhd
      exact h

theorem RRInv_enqueue {pq₀ pending rq : List SimProcess} {t : Nat}
    {eo : List ExecutionBlock} {pm : List ProcessMetrics}
    (hpq : ∀ p ∈ pq₀, 0 < p.burstTime ∧ p.remainingTime = p.burstTime)
    (hinv : RRInv pq₀ pending rq t eo pm) :
    RRInv pq₀ (enqueueArrived t pending rq).1 (enqueueArrived t pending rq).2
      t eo pm := by
  obtain ⟨hpen, hrq, hmet, hperm, htl⟩ := hinv
  obtain ⟨moved, h1, h2, h3, _⟩ := enqueueArrived_spec t pending rq
  refine ⟨?_, ?_, hmet, ?_, htl⟩
  · intro p hp
    exact hpen p (h1 ▸ List.mem_append_right moved hp)
  · intro p hp
    rw [h2] at hp
    rcases List.mem_append.1 hp with hp | hp
    · exact hrq p hp
    · have hpm0 : p ∈ pending := h1 ▸ List.mem_append_left _ hp
      obtain ⟨hpq0, hsum0⟩ := hpen p hpm0
      obtain ⟨hb, hr⟩ := hpq p hpq0
      refine ⟨⟨p, hpq0, rfl, rfl⟩, h3 p hp, ?_, le_of_eq hr, ?_, ?_⟩
      · rw [hr]; exact hb
      · rw [hsum0, hr]; ring
      · rw [hr]
        simpa using h3 p hp
  · rw [h2]
    rw [h1] at hperm
    refine List.Perm.trans ?_ hperm
    rw [← Multiset.coe_eq_coe]
    simp only [List.map_append, ← Multiset.coe_add]
    abel

theorem rrLoop_ok (q : Nat) (pq₀ : List SimProcess) (hq : 1 ≤ q)
    (hid : (pq₀.map (·.id)).Nodup)
    (hpq : ∀ p ∈ pq₀, 0 < p.burstTime ∧ p.remainingTime = p.burstTime) :
    ∀ fuel pending rq t eo pm,
      RRInv pq₀ pending rq t eo pm →
      remSum pending + remSum rq + (maxArrivalSim pq₀ + 1 - t) < fuel →
      ∃ eo₂ pm₂,
        rrLoop q fuel pending rq t eo pm = some (eo₂, pm₂) ∧
        (∀ p₀ ∈ pq₀, sumDur p₀.id eo₂ = (p₀.burstTime : Int)) ∧
        overlapFree eo₂ ∧ startSorted eo₂ ∧ (∀ m ∈ pm₂, MetricsOK m) ∧
        List.Perm (pm₂.map (·.id)) (pq₀.map (·.id)) := by
  intro fuel
  induction fuel with
  | zero =>
    intro p r t eo pm _ hF
    exact absurd hF (Nat.not_lt_zero _)
  | succ fuel ih =>
    intro pending rq t eo pm hinv hF
    by_cases hg : (pending.isEmpty && rq.isEmpty) = true
    · rw [rrLoop, if_pos hg]
      obtain ⟨hpen, hrq, hmet, hperm, htl⟩ := hinv
      rw [Bool.and_eq_true, List.isEmpty_iff, List.isEmpty_iff] at hg
      obtain ⟨hpe, hre⟩ := hg
      subst hpe
      subst hre
      simp only [List.map_nil, List.nil_append] at hperm
      refine ⟨eo, pm, rfl, ?_, (pairwise_of_TLinv htl).1,
        (pairwise_of_TLinv htl).2, fun m hm => (hmet m hm).1, hperm⟩
      intro p₀ hp₀
      have hmem : p₀.id ∈ pm.map (·.id) :=
        hperm.mem_iff.2 (List.mem_map_of_mem (·.id) hp₀)
      obtain ⟨m, hm, hmid⟩ := List.mem_map.1 hmem
      obtain ⟨_, hsum, p₀', hp₀', hid', hburst'⟩ := hmet m hm
      have : p₀' = p₀ :=
        List.inj_on_of_nodup_map hid hp₀' hp₀ (by rw [← hid', hmid])
      subst this
      rw [← hmid, hsum, hburst']
    · rw [rrLoop, if_neg hg]
      have hinv₁ := RRInv_enqueue hpq hinv
      obtain ⟨moved, h1, h2, h3, h4⟩ := enqueueArrived_spec t pending rq
      rcases henq : enqueueArrived t pending rq with ⟨pending₁, rq₁⟩
      rw [henq] at hinv₁ h1 h2 h4
      simp only at hinv₁ h1 h2 h4
      obtain ⟨hpen₁, hrq₁, hmet₁, hperm₁, htl₁⟩ := hinv₁
      cases rq₁ with
      | nil =>
        obtain ⟨hrq0, hmv0⟩ : rq = [] ∧ moved = [] :=
          List.append_eq_nil.1 h2.symm
        subst hrq0
        subst hmv0
        rw [List.nil_append] at h1
        subst h1
        have hpne : pending ≠ [] := by
          intro hnil
          apply hg
          rw [hnil]
          rfl
        obtain ⟨hd₀, rest₀, hpeq⟩ := List.exists_cons_of_ne_nil hpne
        have hhd : ¬ hd₀.arrivalTime ≤ t := by
          apply h4
          rw [hpeq]
          rfl
        have hd₀pq : hd₀ ∈ pq₀ := (hpen₁ hd₀ (by rw [hpeq]; simp)).1
        have hle := le_maxArrivalSim hd₀pq
        have hrs0 : remSum ([] : List SimProcess) = 0 := rfl
        refine ih pending [] (t + 1) eo pm
          ⟨hpen₁, fun p hp => absurd hp (List.not_mem_nil p), hmet₁,
            hperm₁, TLinv_mono htl₁ (Nat.le_succ _)⟩ ?_
        omega
      | cons cur rest =>
        have hcur := hrq₁ cur (by simp)
        obtain ⟨⟨p₀c, hp₀c, hidc, hbc⟩, harrc, hremc, hremlec, hsumc,
          hexecc⟩ := hcur
        have he1 : 1 ≤ min q cur.remainingTime := le_min hq hremc
        have he2 : min q cur.remainingTime ≤ cur.remainingTime :=
          min_le_right _ _
        have hndAll : ((pending₁.map (·.id) ++ (cur :: rest).map (·.id)) ++
            pm.map (·.id)).Nodup := hperm₁.nodup_iff.2 hid
        rw [List.nodup_append] at hndAll
        obtain ⟨hndL, hndPM, hdisjLPM⟩ := hndAll
        rw [List.nodup_append] at hndL
        obtain ⟨hndPen, hndRQ, hdisjPenRQ⟩ := hndL
        rw [List.map_cons, List.nodup_cons] at hndRQ
        obtain ⟨hcr, hndRest⟩ := hndRQ
        have hcur_pen : cur.id ∉ pending₁.map (·.id) := by
          intro hmem
          exact hdisjPenRQ hmem (by rw [List.map_cons]; simp)
        have hcur_pm : cur.id ∉ pm.map (·.id) := by
          intro hmem
          exact hdisjLPM
            (List.mem_append_right _ (by rw [List.map_cons]; simp)) hmem
        have hpres : ∀ s : String, s ≠ cur.id →
            sumDur s (eo ++ [⟨cur.id, t, t + min q cur.remainingTime⟩]) =
              sumDur s eo := by
          intro s hs
          rw [sumDur_append, if_neg (fun h => hs h.symm), add_zero]
        have hcursum :
            sumDur cur.id (eo ++ [⟨cur.id, t, t + min q cur.remainingTime⟩]) =
              sumDur cur.id eo +
                ((min q cur.remainingTime : Nat) : Int) := by
          rw [sumDur_append, if_pos rfl]
          simp only [durInt]
          rw [Nat.cast_add]
          ring
        obtain ⟨mv₂, hn1, hn2, hn3, _⟩ :=
          enqueueArrived_spec (t + min q cur.remainingTime) pending₁ rest
        have htl₂ : TLinv (t + min q cur.remainingTime)
            (eo ++ [⟨cur.id, t, t + min q cur.remainingTime⟩]) :=
          TLinv_append _ htl₁ (le_refl t) (Nat.le_add_right _ _)
        have hpen₂ : ∀ p ∈ (enqueueArrived (t + min q cur.remainingTime)
            pending₁ rest).1, p ∈ pq₀ ∧
            sumDur p.id (eo ++ [⟨cur.id, t, t + min q cur.remainingTime⟩])
              = 0 := by
          intro p hp
          have hp1 : p ∈ pending₁ := hn1 ▸ List.mem_append_right mv₂ hp
          obtain ⟨hppq, hpsum⟩ := hpen₁ p hp1
          have hne : p.id ≠ cur.id := by
            intro h
            exact hcur_pen (h ▸ List.mem_map_of_mem (·.id) hp1)
          exact ⟨hppq, by rw [hpres p.id hne]; exact hpsum⟩
        have hrq₂ : ∀ p ∈ (enqueueArrived (t + min q cur.remainingTime)
            pending₁ rest).2,
            (∃ p₀ ∈ pq₀, p.id = p₀.id ∧ p.burstTime = p₀.burstTime) ∧
            p.arrivalTime ≤ t + min q cur.remainingTime ∧
            0 < p.remainingTime ∧ p.remainingTime ≤ p.burstTime ∧
            sumDur p.id (eo ++ [⟨cur.id, t, t + min q cur.remainingTime⟩]) =
              (p.burstTime : Int) - (p.remainingTime : Int) ∧
            p.arrivalTime + (p.burstTime - p.remainingTime) ≤
              t + min q cur.remainingTime := by
          intro p hp
          rw [hn2] at hp
          rcases List.mem_append.1 hp with hp | hp
          · obtain ⟨hex, harr, hrem, hremle, hsum, hexec⟩ :=
              hrq₁ p (List.mem_cons_of_mem cur hp)
            have hne : p.id ≠ cur.id := by
              intro h
              exact hcr (h ▸ List.mem_map_of_mem (·.id) hp)
            refine ⟨hex, le_trans harr (Nat.le_add_right _ _), hrem, hremle,
              ?_, le_trans hexec (Nat.le_add_right _ _)⟩
            rw [hpres p.id hne]
            exact hsum
          · have hp1 : p ∈ pending₁ := hn1 ▸ List.mem_append_left _ hp
            obtain ⟨hppq, hpsum⟩ := hpen₁ p hp1
            obtain ⟨hb, hr⟩ := hpq p hppq
            have hne : p.id ≠ cur.id := by
              intro h
              exact hcur_pen (h ▸ List.mem_map_of_mem (·.id) hp1)
            refine ⟨⟨p, hppq, rfl, rfl⟩, hn3 p hp, ?_, le_of_eq hr, ?_, ?_⟩
            · rw [hr]; exact hb
            · rw [hpres p.id hne, hpsum, hr]; ring
            · rw [hr]
              simpa using hn3 p hp
        have hmet₂ : ∀ m ∈ pm, MetricsOK m ∧
            sumDur m.id (eo ++ [⟨cur.id, t, t + min q cur.remainingTime⟩]) =
              (m.burstTime : Int) ∧
            ∃ p₀ ∈ pq₀, m.id = p₀.id ∧ m.burstTime = p₀.burstTime := by
          intro m hm
          obtain ⟨hok, hsum, hex⟩ := hmet₁ m hm
          have hne : m.id ≠ cur.id := by
            intro h
            exact hcur_pm (h ▸ List.mem_map_of_mem (·.id) hm)
          exact ⟨hok, by rw [hpres m.id hne]; exact hsum, hex⟩
        have e1 : remSum pending = remSum moved + remSum pending₁ := by
          rw [h1, remSum_append]
        have e2 : remSum rq + remSum moved =
            cur.remainingTime + remSum rest := by
          have h5 : remSum (cur :: rest) = remSum (rq ++ moved) := by rw [h2]
          rw [remSum_cons, remSum_append] at h5
          omega
        have e3 : remSum pending₁ =
            remSum mv₂ + remSum (enqueueArrived
              (t + min q cur.remainingTime) pending₁ rest).1 := by
          conv_lhs => rw [hn1]
          rw [remSum_append]
        have e4 : remSum (enqueueArrived (t + min q cur.remainingTime)
            pending₁ rest).2 = remSum rest + remSum mv₂ := by
          rw [hn2, remSum_append]
        have hrs1 : remSum [{ cur with remainingTime := cur.remainingTime - min q cur.remainingTime }] = cur.remainingTime - min q cur.remainingTime := rfl
        have hc1 : ([{ cur with remainingTime := cur.remainingTime - min q cur.remainingTime }] : List SimProcess).map (·.id) = [cur.id] := rfl
        by_cases hpos : 0 < cur.remainingTime - min q cur.remainingTime
        · have hrqN : ∀ p ∈ (enqueueArrived (t + min q cur.remainingTime)
              pending₁ rest).2 ++
              [{ cur with remainingTime := cur.remainingTime - min q cur.remainingTime }],
              (∃ p₀ ∈ pq₀, p.id = p₀.id ∧ p.burstTime = p₀.burstTime) ∧
              p.arrivalTime ≤ t + min q cur.remainingTime ∧
              0 < p.remainingTime ∧ p.remainingTime ≤ p.burstTime ∧
              sumDur p.id
                (eo ++ [⟨cur.id, t, t + min q cur.remainingTime⟩]) =
                (p.burstTime : Int) - (p.remainingTime : Int) ∧
              p.arrivalTime + (p.burstTime - p.remainingTime) ≤
                t + min q cur.remainingTime := by
            intro p hp
            rcases List.mem_append.1 hp with hp | hp
            · exact hrq₂ p hp
            · rw [List.mem_singleton] at hp
              subst hp
              refine ⟨⟨p₀c, hp₀c, hidc, hbc⟩, ?_, hpos, ?_, ?_, ?_⟩
              · exact le_trans harrc (Nat.le_add_right _ _)
              · show cur.remainingTime - min q cur.remainingTime ≤
                  cur.burstTime
                omega
              · show sumDur cur.id
                  (eo ++ [⟨cur.id, t, t + min q cur.remainingTime⟩]) =
                  (cur.burstTime : Int) -
                    ((cur.remainingTime - min q cur.remainingTime : Nat) :
                      Int)
                rw [hcursum, hsumc, Nat.cast_sub he2]
                ring
              · show cur.arrivalTime + (cur.burstTime -
                  (cur.remainingTime - min q cur.remainingTime)) ≤
                  t + min q cur.remainingTime
                omega
          have hpermN : List.Perm
              ((enqueueArrived (t + min q cur.remainingTime)
                pending₁ rest).1.map (·.id) ++
                (((enqueueArrived (t + min q cur.remainingTime)
                  pending₁ rest).2 ++
                  [({ cur with remainingTime := cur.remainingTime - min q cur.remainingTime } : SimProcess)]) : List SimProcess).map (·.id) ++
                pm.map (·.id)) (pq₀.map (·.id)) := by
            refine List.Perm.trans ?_ hperm₁
            rw [← Multiset.coe_eq_coe, hn2]
            conv_rhs => rw [hn1]
            simp only [hc1, List.map_append, List.map_cons, List.map_nil,
              ← Multiset.coe_add, ← Multiset.cons_coe,
              ← Multiset.singleton_add, Multiset.coe_nil, add_zero]
            abel
          have hFN : remSum (enqueueArrived (t + min q cur.remainingTime)
              pending₁ rest).1 +
              remSum ((enqueueArrived (t + min q cur.remainingTime)
                pending₁ rest).2 ++
                [{ cur with remainingTime := cur.remainingTime - min q cur.remainingTime }]) +
              (maxArrivalSim pq₀ + 1 - (t + min q cur.remainingTime)) <
              fuel := by
            rw [remSum_append, hrs1]
            omega
          obtain ⟨eo₂, pm₂, heq₂, hA, hB, hC, hD, hE⟩ :=
            ih _ _ _ _ _ ⟨hpen₂, hrqN, hmet₂, hpermN, htl₂⟩ hFN
          refine ⟨eo₂, pm₂, ?_, hA, hB, hC, hD, hE⟩
          show (if 0 < cur.remainingTime - min q cur.remainingTime then
              rrLoop q fuel
                (enqueueArrived (t + min q cur.remainingTime)
                  pending₁ rest).1
                ((enqueueArrived (t + min q cur.remainingTime)
                  pending₁ rest).2 ++
                  [{ cur with remainingTime := cur.remainingTime - min q cur.remainingTime }])
                (t + min q cur.remainingTime)
                (eo ++ [⟨cur.id, t, t + min q cur.remainingTime⟩]) pm
            else
              rrLoop q fuel
                (enqueueArrived (t + min q cur.remainingTime)
                  pending₁ rest).1
                (enqueueArrived (t + min q cur.remainingTime)
                  pending₁ rest).2
                (t + min q cur.remainingTime)
                (eo ++ [⟨cur.id, t, t + min q cur.remainingTime⟩])
                (pm ++ [⟨cur.id, cur.arrivalTime, cur.burstTime,
                  t + min q cur.remainingTime,
                  ((t + min q cur.remainingTime : Nat) : Int) -
                    (cur.arrivalTime : Int),
                  ((t + min q cur.remainingTime : Nat) : Int) -
                    (cur.arrivalTime : Int) - (cur.burstTime : Int),
                  cur.priority⟩])) = some (eo₂, pm₂)
          rw [if_pos hpos]
          exact heq₂
        · have hmetN : ∀ m ∈ pm ++ [(⟨cur.id, cur.arrivalTime,
              cur.burstTime, t + min q cur.remainingTime,
              ((t + min q cur.remainingTime : Nat) : Int) -
                (cur.arrivalTime : Int),
              ((t + min q cur.remainingTime : Nat) : Int) -
                (cur.arrivalTime : Int) - (cur.burstTime : Int),
              cur.priority⟩ : ProcessMetrics)],
              MetricsOK m ∧
              sumDur m.id
                (eo ++ [⟨cur.id, t, t + min q cur.remainingTime⟩]) =
                (m.burstTime : Int) ∧
              ∃ p₀ ∈ pq₀, m.id = p₀.id ∧ m.burstTime = p₀.burstTime := by
            intro m hm
            rcases List.mem_append.1 hm with hm | hm
            · exact hmet₂ m hm
            · rw [List.mem_singleton] at hm
              subst hm
              refine ⟨⟨?_, ?_, ?_, rfl, rfl⟩, ?_, ?_⟩
              · show (0 : Int) ≤ ((t + min q cur.remainingTime : Nat) :
                  Int) - (cur.arrivalTime : Int) - (cur.burstTime : Int)
                push_cast
                omega
              · show (cur.burstTime : Int) ≤
                  ((t + min q cur.remainingTime : Nat) : Int) -
                    (cur.arrivalTime : Int)
                push_cast
                omega
              · show (cur.arrivalTime : Int) + (cur.burstTime : Int) ≤
                  ((t + min q cur.remainingTime : Nat) : Int)
                push_cast
                omega
              · show sumDur cur.id
                  (eo ++ [⟨cur.id, t, t + min q cur.remainingTime⟩]) =
                  (cur.burstTime : Int)
                have hee : min q cur.remainingTime = cur.remainingTime := by
                  omega
                rw [hcursum, hsumc, hee]
                ring
              · exact ⟨p₀c, hp₀c, hidc, hbc⟩
          have hpermN : List.Perm
              ((enqueueArrived (t + min q cur.remainingTime)
                pending₁ rest).1.map (·.id) ++
                (enqueueArrived (t + min q cur.remainingTime)
                  pending₁ rest).2.map (·.id) ++
                (pm ++ [(⟨cur.id, cur.arrivalTime, cur.burstTime,
                  t + min q cur.remainingTime,
                  ((t + min q cur.remainingTime : Nat) : Int) -
                    (cur.arrivalTime : Int),
                  ((t + min q cur.remainingTime : Nat) : Int) -
                    (cur.arrivalTime : Int) - (cur.burstTime : Int),
                  cur.priority⟩ : ProcessMetrics)]).map (·.id))
              (pq₀.map (·.id)) := by
            refine List.Perm.trans ?_ hperm₁
            rw [← Multiset.coe_eq_coe, hn2]
            conv_rhs => rw [hn1]
            simp only [List.map_append, List.map_cons, List.map_nil,
              ← Multiset.coe_add, ← Multiset.cons_coe,
              ← Multiset.singleton_add, Multiset.coe_nil, add_zero]
            abel
          have hFN : remSum (enqueueArrived (t + min q cur.remainingTime)
              pending₁ rest).1 +
              remSum (enqueueArrived (t + min q cur.remainingTime)
                pending₁ rest).2 +
              (maxArrivalSim pq₀ + 1 - (t + min q cur.remainingTime)) <
              fuel := by
            omega
          obtain ⟨eo₂, pm₂, heq₂, hA, hB, hC, hD, hE⟩ :=
            ih _ _ _ _ _ ⟨hpen₂, hrq₂, hmetN, hpermN, htl₂⟩ hFN
          refine ⟨eo₂, pm₂, ?_, hA, hB, hC, hD, hE⟩
          show (if 0 < cur.remainingTime - min q cur.remainingTime then
              rrLoop q fuel
                (enqueueArrived (t + min q cur.remainingTime)
                  pending₁ rest).1
                ((enqueueArrived (t + min q cur.remainingTime)
                  pending₁ rest).2 ++
                  [{ cur with remainingTime := cur.remainingTime - min q cur.remainingTime }])
                (t + min q cur.remainingTime)
                (eo ++ [⟨cur.id, t, t + min q cur.remainingTime⟩]) pm
            else
              rrLoop q fuel
                (enqueueArrived (t + min q cur.remainingTime)
                  pending₁ rest).1
                (enqueueArrived (t + min q cur.remainingTime)
                  pending₁ rest).2
                (t + min q cur.remainingTime)
                (eo ++ [⟨cur.id, t, t + min q cur.remainingTime⟩])
                (pm ++ [⟨cur.id, cur.arrivalTime, cur.burstTime,
                  t + min q cur.remainingTime,
                  ((t + min q cur.remainingTime : Nat) : Int) -
                    (cur.arrivalTime : Int),
                  ((t + min q cur.remainingTime : Nat) : Int) -
                    (cur.arrivalTime : Int) - (cur.burstTime : Int),
                  cur.priority⟩])) = some (eo₂, pm₂)
          rw [if_neg hpos]
          exact heq₂

theorem RRInv_init (pq₀ : List SimProcess) : RRInv pq₀ pq₀ [] 0 [] [] := by
  refine ⟨fun p hp => ⟨hp, rfl⟩, fun p hp => absurd hp (List.not_mem_nil p),
    fun m hm => absurd hm (List.not_mem_nil m), ?_, TLinv_nil 0⟩
  simp

theorem remSum_initSim (l : List Process) :
    remSum (l.map initSim) = (l.map (·.burstTime)).sum := by
  rw [remSum, List.map_map]
  rfl

theorem rrSchedule_good {procs : List Process} {q : Nat}
    (hnd : (procs.map (·.id)).Nodup) (hb : ∀ p ∈ procs, 0 < p.burstTime)
    (hq : 1 ≤ q) :
    ∃ eo₂ pm₂,
      rrLoop q (rrFuel procs) ((sortByArrival procs).map initSim) [] 0 [] [] =
        some (eo₂, pm₂) ∧
      scheduleRoundRobin procs q = calculateAverages eo₂ pm₂ ∧
      (∀ p ∈ procs, sumDur p.id eo₂ = (p.burstTime : Int)) ∧
      overlapFree eo₂ ∧ startSorted eo₂ ∧ (∀ m ∈ pm₂, MetricsOK m) ∧
      List.Perm (pm₂.map (·.id)) (procs.map (·.id)) := by
  have hpermSort := sortByArrival_perm procs
  have hidpq : (((sortByArrival procs).map initSim).map (·.id)).Nodup := by
    rw [map_id_initSim]
    exact (hpermSort.map (·.id)).nodup_iff.2 hnd
  have hpq : ∀ p ∈ (sortByArrival procs).map initSim,
      0 < p.burstTime ∧ p.remainingTime = p.burstTime := by
    intro p hp
    obtain ⟨p', hp', rfl⟩ := List.mem_map.1 hp
    exact ⟨hb p' (hpermSort.mem_iff.1 hp'), rfl⟩
  have hF : remSum ((sortByArrival procs).map initSim) +
      remSum ([] : List SimProcess) +
      (maxArrivalSim ((sortByArrival procs).map initSim) + 1 - 0) <
      rrFuel procs := by
    have hsum : remSum ((sortByArrival procs).map initSim) =
        (procs.map (·.burstTime)).sum := by
      rw [remSum_initSim]
      exact (hpermSort.map (·.burstTime)).sum_eq
    have hmax : maxArrivalSim ((sortByArrival procs).map initSim) ≤
        maxArrival procs := by
      apply maxArrivalSim_le
      intro p hp
      obtain ⟨p', hp', rfl⟩ := List.mem_map.1 hp
      exact le_maxArrival (hpermSort.mem_iff.1 hp')
    have hrs0 : remSum ([] : List SimProcess) = 0 := rfl
    rw [hsum, hrs0, rrFuel]
    omega
  obtain ⟨eo₂, pm₂, heq, hsums, hof, hss, hmet, hperm⟩ :=
    rrLoop_ok q ((sortByArrival procs).map initSim) hq hidpq hpq
      (rrFuel procs) ((sortByArrival procs).map initSim) [] 0 [] []
      (RRInv_init _) hF
  refine ⟨eo₂, pm₂, heq, ?_, ?_, hof, hss, hmet, ?_⟩
  · unfold scheduleRoundRobin
    rw [heq]
  · intro p hp
    have hp' : p ∈ sortByArrival procs := hpermSort.mem_iff.2 hp
    exact hsums (initSim p) (List.mem_map_of_mem initSim hp')
  · refine hperm.trans ?_
    rw [map_id_initSim]
    exact hpermSort.map (·.id)

theorem filter_metrics_id :
    ∀ {l : List ProcessMetrics}, (l.map (·.id)).Nodup →
      ∀ {s : String}, s ∈ l.map (·.id) →
        (l.filter (fun m => m.id == s)).length = 1 := by
  intro l
  induction l with
  | nil => intro _ s hs; cases hs
  | cons m l' ih =>
    intro hnd s hs
    simp only [List.map_cons, List.nodup_cons] at hnd
    by_cases h : m.id = s
    · have hnil : l'.filter (fun x => x.id == s) = [] := by
        rw [List.filter_eq_nil_iff]
        intro x hx hbeq
        rw [beq_iff_eq] at hbeq
        exact hnd.1 (h ▸ hbeq ▸ List.mem_map_of_mem (·.id) hx)
      rw [List.filter_cons]
      simp [h, hnil]
    · have hs' : s ∈ l'.map (·.id) := by
        rcases List.mem_cons.1 hs with hs | hs
        · exact absurd hs.symm h
        · exact hs
      rw [List.filter_cons]
      simp only [beq_iff_eq, h, if_false]
      exact ih hnd.2 hs'

/-! Non-termination on invalid inputs. -/

theorem rrLoop_zero_none (pq₀ : List SimProcess)
    (hpq : ∀ p ∈ pq₀, 0 < p.remainingTime) :
    ∀ fuel pending rq t eo pm,
      (∀ p ∈ pending, p ∈ pq₀) → (∀ p ∈ rq, 0 < p.remainingTime) →
      (pending ≠ [] ∨ rq ≠ []) →
      rrLoop 0 fuel pending rq t eo pm = none := by
  intro fuel
  induction fuel with
  | zero => intro pending rq t eo pm _ _ _; rfl
  | succ fuel ih =>
    intro pending rq t eo pm hpen hrq hne
    have hg : ¬ (pending.isEmpty && rq.isEmpty) = true := by
      rw [Bool.and_eq_true, List.isEmpty_iff, List.isEmpty_iff]
      rintro ⟨hh1, hh2⟩
      rcases hne with h | h
      · exact h hh1
      · exact h hh2
    rw [rrLoop, if_neg hg]
    obtain ⟨moved, h1, h2, h3, h4⟩ := enqueueArrived_spec t pending rq
    rcases henq : enqueueArrived t pending rq with ⟨pending₁, rq₁⟩
    rw [henq] at h1 h2 h4
    simp only at h1 h2 h4
    cases rq₁ with
    | nil =>
      obtain ⟨hrq0, hmv0⟩ : rq = [] ∧ moved = [] :=
        List.append_eq_nil.1 h2.symm
      subst hrq0
      subst hmv0
      rw [List.nil_append] at h1
      subst h1
      refine ih pending [] (t + 1) eo pm hpen
        (fun p hp => absurd hp (List.not_mem_nil p)) (Or.inl ?_)
      rcases hne with h | h
      · exact h
      · exact absurd rfl h
    | cons cur rest =>
      have hcurrem : 0 < cur.remainingTime := by
        have hcur : cur ∈ rq ++ moved := by rw [← h2]; simp
        rcases List.mem_append.1 hcur with h | h
        · exact hrq cur h
        · exact hpq cur (hpen cur (h1 ▸ List.mem_append_left _ h))
      obtain ⟨mv₂, hn1, hn2, hn3, _⟩ :=
        enqueueArrived_spec (t + min 0 cur.remainingTime) pending₁ rest
      have hpos : 0 < cur.remainingTime - min 0 cur.remainingTime := by
        rw [Nat.zero_min, Nat.sub_zero]
        exact hcurrem
      show (if 0 < cur.remainingTime - min 0 cur.remainingTime then
          rrLoop 0 fuel
            (enqueueArrived (t + min 0 cur.remainingTime) pending₁ rest).1
            ((enqueueArrived (t + min 0 cur.remainingTime)
              pending₁ rest).2 ++
              [{ cur with remainingTime := cur.remainingTime - min 0 cur.remainingTime }])
            (t + min 0 cur.remainingTime)
            (eo ++ [⟨cur.id, t, t + min 0 cur.remainingTime⟩]) pm
        else
          rrLoop 0 fuel
            (enqueueArrived (t + min 0 cur.remainingTime) pending₁ rest).1
            (enqueueArrived (t + min 0 cur.remainingTime) pending₁ rest).2
            (t + min 0 cur.remainingTime)
            (eo ++ [⟨cur.id, t, t + min 0 cur.remainingTime⟩])
            (pm ++ [⟨cur.id, cur.arrivalTime, cur.burstTime,
              t + min 0 cur.remainingTime,
              ((t + min 0 cur.remainingTime : Nat) : Int) -
                (cur.arrivalTime : Int),
              ((t + min 0 cur.remainingTime : Nat) : Int) -
                (cur.arrivalTime : Int) - (cur.burstTime : Int),
              cur.priority⟩])) = none
      rw [if_pos hpos]
      refine ih _ _ _ _ _ ?_ ?_ (Or.inr ?_)
      · intro p hp
        exact hpen p (h1 ▸ List.mem_append_right moved
          (hn1 ▸ List.mem_append_right mv₂ hp))
      · intro p hp
        rcases List.mem_append.1 hp with hp | hp
        · rw [hn2] at hp
          rcases List.mem_append.1 hp with hp | hp
          · have hcur2 : p ∈ rq ++ moved := by
              rw [← h2]
              exact List.mem_cons_of_mem cur hp
            rcases List.mem_append.1 hcur2 with h | h
            · exact hrq p h
            · exact hpq p (hpen p (h1 ▸ List.mem_append_left _ h))
          · exact hpq p (hpen p (h1 ▸ List.mem_append_right moved
              (hn1 ▸ List.mem_append_left _ hp)))
        · rw [List.mem_singleton] at hp
          subst hp
          exact hpos
      · simp

theorem npLoop_dup_none (sel : SimProcess → List SimProcess → SimProcess) :
    ∀ fuel t eo pm,
      npLoop sel (dupIdProcs.map initSim) fuel t ["A"] eo pm = none := by
  intro fuel
  induction fuel with
  | zero => intro t eo pm; rfl
  | succ fuel ih =>
    intro t eo pm
    have hav : availableOf (dupIdProcs.map initSim) t ["A"] = [] := by
      simp [availableOf, dupIdProcs, initSim, List.filter]
    rw [npLoop, if_pos (by decide), hav]
    exact ih (t + 1) eo pm

theorem npLoop_dup_step (fuel : Nat) :
    npLoop selSJF (dupIdProcs.map initSim) (fuel + 1) 0 [] [] [] =
      npLoop selSJF (dupIdProcs.map initSim) fuel 1 ["A"]
        [⟨"A", 0, 1⟩] [⟨"A", 0, 1, 1, 1, 0, some 1⟩] := rfl

theorem sjf_dup_not_terminates : ¬ sjfTerminates dupIdProcs := by
  rintro ⟨fuel, hsome⟩
  cases fuel with
  | zero => simp [npLoop] at hsome
  | succ fuel =>
    rw [npLoop_dup_step, npLoop_dup_none] at hsome
    simp at hsome

theorem npLoopP_dup_step (fuel : Nat) :
    npLoop selPriority (dupIdProcs.map initSim) (fuel + 1) 0 [] [] [] =
      npLoop selPriority (dupIdProcs.map initSim) fuel 1 ["A"]
        [⟨"A", 0, 1⟩] [⟨"A", 0, 1, 1, 1, 0, some 1⟩] := rfl

theorem priority_dup_not_terminates : ¬ priorityTerminates dupIdProcs := by
  rintro ⟨fuel, hsome⟩
  cases fuel with
  | zero => simp [npLoop] at hsome
  | succ fuel =>
    rw [npLoopP_dup_step, npLoop_dup_none] at hsome
    simp at hsome

theorem rr_zero_dup_not_terminates : ¬ rrTerminates dupIdProcs 0 := by
  rintro ⟨fuel, hsome⟩
  rw [rrLoop_zero_none ((sortByArrival dupIdProcs).map initSim) (by decide)
    fuel ((sortByArrival dupIdProcs).map initSim) [] 0 [] []
    (fun p hp => hp) (fun p hp => absurd hp (List.not_mem_nil p))
    (Or.inl (by decide))] at hsome
  simp at hsome

/-! Characterization of the SJF selection: the reduce keeps the current
minimum on ties, so the selected process is the first one attaining the
minimal burst time. -/

theorem selSJF_cons (hd b : SimProcess) (rest : List SimProcess) :
    selSJF hd (b :: rest) =
      selSJF (if b.burstTime < hd.burstTime then b else hd) rest := rfl

theorem selSJF_first_min :
    ∀ (tl : List SimProcess) (hd : SimProcess),
      ∃ l₁ l₂, hd :: tl = l₁ ++ selSJF hd tl :: l₂ ∧
        (∀ x ∈ l₁, (selSJF hd tl).burstTime < x.burstTime) ∧
        ∀ x ∈ hd :: tl, (selSJF hd tl).burstTime ≤ x.burstTime := by
  intro tl
  induction tl with
  | nil =>
    intro hd
    refine ⟨[], [], rfl, by simp, ?_⟩
    intro x hx
    rcases List.mem_cons.1 hx with rfl | hx
    · exact le_refl _
    · cases hx
  | cons b rest ih =>
    intro hd
    by_cases hc : b.burstTime < hd.burstTime
    · have hm : selSJF hd (b :: rest) = selSJF b rest := by
        rw [selSJF_cons, if_pos hc]
      obtain ⟨l₁, l₂, hdec, h1, h2⟩ := ih b
      refine ⟨hd :: l₁, l₂, ?_, ?_, ?_⟩
      · rw [hm, List.cons_append, ← hdec]
      · intro x hx
        rw [hm]
        rcases List.mem_cons.1 hx with rfl | hx
        · exact lt_of_le_of_lt (h2 b (by simp)) hc
        · exact h1 x hx
      · intro x hx
        rw [hm]
        rcases List.mem_cons.1 hx with rfl | hx
        · exact le_trans (h2 b (by simp)) (le_of_lt hc)
        · exact h2 x hx
    · have hm : selSJF hd (b :: rest) = selSJF hd rest := by
        rw [selSJF_cons, if_neg hc]
      have hhb : hd.burstTime ≤ b.burstTime := Nat.le_of_not_lt hc
      obtain ⟨l₁, l₂, hdec, h1, h2⟩ := ih hd
      cases l₁ with
      | nil =>
        rw [List.nil_append] at hdec
        injection hdec with hA hB
        refine ⟨[], b :: rest, ?_, by simp, ?_⟩
        · rw [List.nil_append, hm, ← hA]
        · intro x hx
          rw [hm]
          rcases List.mem_cons.1 hx with rfl | hx
          · exact h2 x (by simp)
          · rcases List.mem_cons.1 hx with rfl | hx
            · rw [← hA]
              exact hhb
            · exact h2 x (List.mem_cons_of_mem hd hx)
      | cons a l₁' =>
        rw [List.cons_append] at hdec
        injection hdec with hA hB
        subst hA
        refine ⟨hd :: b :: l₁', l₂, ?_, ?_, ?_⟩
        · rw [hm, List.cons_append, List.cons_append]
          rw [← hB]
        · intro x hx
          rw [hm]
          rcases List.mem_cons.1 hx with rfl | hx
          · exact h1 x (by simp)
          · rcases List.mem_cons.1 hx with rfl | hx
            · exact lt_of_lt_of_le (h1 hd (by simp)) hhb
            · exact h1 x (List.mem_cons_of_mem hd hx)
        · intro x hx
          rw [hm]
          rcases List.mem_cons.1 hx with rfl | hx
          · exact h2 x (by simp)
          · rcases List.mem_cons.1 hx with rfl | hx
            · exact le_trans (h2 hd (by simp)) hhb
            · exact h2 x (List.mem_cons_of_mem hd hx)

/-! The preemptive selection rule. -/

theorem firstMinRem_mem (hd : SimProcess) (tl : List SimProcess) :
    firstMinRem hd tl ∈ hd :: tl := by
  apply reduce1_mem
  intro a b
  by_cases h : b.remainingTime < a.remainingTime
  · right; simp [h]
  · left; simp [h]

theorem meansOK_SRTF (procs : List Process) : meansOK (scheduleSRTF procs) := by
  unfold scheduleSRTF
  cases hnp : preemptiveLoop srtfPick (rrFuel procs) (procs.map initSim)
      0 none [] [] with
  | none => exact meansOK_calc [] []
  | some v =>
    obtain ⟨eo, pm⟩ := v
    exact meansOK_calc eo pm

theorem meansOK_PP (procs : List Process) (rev : Bool) :
    meansOK (schedulePriorityPreemptive procs rev) := by
  unfold schedulePriorityPreemptive
  cases hnp : preemptiveLoop (ppPick rev) (rrFuel procs) (procs.map initSim)
      0 none [] [] with
  | none => exact meansOK_calc [] []
  | some v =>
    obtain ⟨eo, pm⟩ := v
    exact meansOK_calc eo pm

/-! The claims. -/

/-- C1: for every scheduling policy (FCFS, SJF, Priority, Round-Robin) and
every process set satisfying the caller preconditions (non-empty, unique ids,
arrivalTime ≥ 0, burstTime > 0, quantum > 0 for Round-Robin), the returned
SchedulingResult satisfies: for each process id, the sum of
`endTime - startTime` over that process's execution blocks equals its burst
time, and the blocks in executionOrder are pairwise non-overlapping and listed
in non-decreasing startTime order. -/
theorem C1_conservation_ordering (procs : List Process) (q : Nat)
    (h : Preconds procs q) : C1Concl procs q := by
  obtain ⟨hne, hnd, hb, hq⟩ := h
  refine ⟨goodResult_FCFS hnd, (goodResult_SJF hnd).1,
    (goodResult_Priority hnd).1, ?_⟩
  obtain ⟨eo₂, pm₂, heq, hres, hsums, hof, hss, hmet, hperm⟩ :=
    rrSchedule_good hnd hb hq
  rw [hres]
  exact ⟨hsums, hof, hss⟩

theorem C1_conservation_ordering_witness :
    Preconds exampleProcs 2 ∧ C1Concl exampleProcs 2 :=
  ⟨by decide, C1_conservation_ordering exampleProcs 2 (by decide)⟩

/-- C2: for every scheduling policy and every process set satisfying the
caller preconditions, every entry of processMetrics satisfies
waitingTime ≥ 0, turnaroundTime ≥ burstTime and
completionTime ≥ arrivalTime + burstTime, with
turnaroundTime = completionTime - arrivalTime and
waitingTime = turnaroundTime - burstTime. -/
theorem C2_metrics_contract (procs : List Process) (q : Nat)
    (h : Preconds procs q) : C2Concl procs q := by
  obtain ⟨hne, hnd, hb, hq⟩ := h
  refine ⟨metricsAllOK_FCFS procs, (goodResult_SJF hnd).2,
    (goodResult_Priority hnd).2, ?_⟩
  obtain ⟨eo₂, pm₂, heq, hres, hsums, hof, hss, hmet, hperm⟩ :=
    rrSchedule_good hnd hb hq
  rw [hres]
  exact hmet

theorem C2_metrics_contract_witness :
    Preconds exampleProcs 2 ∧ C2Concl exampleProcs 2 :=
  ⟨by decide, C2_metrics_contract exampleProcs 2 (by decide)⟩

/-- C3: FCFS sorts the processes by arrivalTime ascending with ties broken by
original input order (a stable sort: the output is a permutation, sorted by
arrival, and preserves the relative order of processes sharing an arrival
time), then runs each process uninterrupted from max(clock, arrivalTime).
On P1(0,4), P2(1,3), P3(2,1) the timeline is P1[0,4), P2[4,7), P3[7,8), the
waiting times are 0, 3, 5 and the average waiting time is 8/3. -/
theorem C3_fcfs_stable_sort (procs : List Process) (a : Nat) :
    List.Perm (sortByArrival procs) procs ∧
    List.Pairwise (fun x y : Process => x.arrivalTime ≤ y.arrivalTime)
      (sortByArrival procs) ∧
    (sortByArrival procs).filter (fun p => p.arrivalTime == a) =
      procs.filter (fun p => p.arrivalTime == a) ∧
    (scheduleFCFS exampleProcs).executionOrder =
      [⟨"P1", 0, 4⟩, ⟨"P2", 4, 7⟩, ⟨"P3", 7, 8⟩] ∧
    (scheduleFCFS exampleProcs).processMetrics.map
      (fun m => (m.id, m.waitingTime)) = [("P1", 0), ("P2", 3), ("P3", 5)] ∧
    (scheduleFCFS exampleProcs).averageWaitingTime = some (8 / 3 : Rat) := by
  refine ⟨sortByArrival_perm procs, sortByArrival_pairwise procs,
    sortByArrival_filter a procs, by decide, by decide, ?_⟩
  have h1 : (scheduleFCFS exampleProcs).averageWaitingTime =
      some (((0 + 3 + 5 : Int) : Rat) / ((3 : Nat) : Rat)) := rfl
  rw [h1]
  norm_num

/-- C4: non-preemptive SJF selects, among the arrived and uncompleted
processes, the first one with the smallest burstTime (ties by input order),
advances the clock by one tick when no process is available, and on
P1(0,4), P2(1,3), P3(2,1) produces P1[0,4), P3[4,5), P2[5,8). -/
theorem C4_sjf_selection (hd : SimProcess) (tl sim : List SimProcess)
    (t fuel : Nat) (completed : List String) (eo : List ExecutionBlock)
    (pm : List ProcessMetrics) (p : SimProcess)
    (hlen : completed.length < sim.length)
    (hav : availableOf sim t completed = []) :
    (∃ l₁ l₂, hd :: tl = l₁ ++ selSJF hd tl :: l₂ ∧
      (∀ x ∈ l₁, (selSJF hd tl).burstTime < x.burstTime) ∧
      ∀ x ∈ hd :: tl, (selSJF hd tl).burstTime ≤ x.burstTime) ∧
    (p ∈ availableOf sim t completed ↔
      p ∈ sim ∧ p.arrivalTime ≤ t ∧ p.id ∉ completed) ∧
    npLoop selSJF sim (fuel + 1) t completed eo pm =
      npLoop selSJF sim fuel (t + 1) completed eo pm ∧
    (scheduleSJF exampleProcs).executionOrder =
      [⟨"P1", 0, 4⟩, ⟨"P3", 4, 5⟩, ⟨"P2", 5, 8⟩] := by
  refine ⟨selSJF_first_min tl hd, mem_availableOf, ?_, by decide⟩
  rw [npLoop, if_pos hlen, hav]

theorem C4_sjf_selection_witness :
    (["P1"] : List String).length <
      ((exampleProcs.map initSim) : List SimProcess).length ∧
    availableOf (exampleProcs.map initSim) 0 ["P1"] = [] ∧
    ((∃ l₁ l₂, initSim ⟨"P1", 0, 4, some 2⟩ :: [initSim ⟨"P2", 1, 3, some 1⟩] =
        l₁ ++ selSJF (initSim ⟨"P1", 0, 4, some 2⟩)
          [initSim ⟨"P2", 1, 3, some 1⟩] :: l₂ ∧
      (∀ x ∈ l₁, (selSJF (initSim ⟨"P1", 0, 4, some 2⟩)
        [initSim ⟨"P2", 1, 3, some 1⟩]).burstTime < x.burstTime) ∧
      ∀ x ∈ initSim ⟨"P1", 0, 4, some 2⟩ :: [initSim ⟨"P2", 1, 3, some 1⟩],
        (selSJF (initSim ⟨"P1", 0, 4, some 2⟩)
          [initSim ⟨"P2", 1, 3, some 1⟩]).burstTime ≤ x.burstTime) ∧
    (initSim ⟨"P3", 2, 1, some 3⟩ ∈ availableOf (exampleProcs.map initSim) 0
        ["P1"] ↔
      initSim ⟨"P3", 2, 1, some 3⟩ ∈ exampleProcs.map initSim ∧
      (initSim ⟨"P3", 2, 1, some 3⟩).arrivalTime ≤ 0 ∧
      (initSim ⟨"P3", 2, 1, some 3⟩).id ∉ (["P1"] : List String)) ∧
    npLoop selSJF (exampleProcs.map initSim) 4 0 ["P1"] [] [] =
      npLoop selSJF (exampleProcs.map initSim) 3 1 ["P1"] [] [] ∧
    (scheduleSJF exampleProcs).executionOrder =
      [⟨"P1", 0, 4⟩, ⟨"P3", 4, 5⟩, ⟨"P2", 5, 8⟩]) :=
  ⟨by decide, by decide,
    C4_sjf_selection (initSim ⟨"P1", 0, 4, some 2⟩)
      [initSim ⟨"P2", 1, 3, some 1⟩] (exampleProcs.map initSim) 0 3 ["P1"]
      [] [] (initSim ⟨"P3", 2, 1, some 3⟩) (by decide) (by decide)⟩

/-- C5: Round-Robin with quantum 2 on P1(0,4), P2(1,3), P3(2,1) produces the
timeline P1[0,2), P2[2,4), P3[4,5), P1[5,7), P2[7,8), and each process's
completionTime equals the endTime of its last execution block. -/
theorem C5_round_robin_example :
    (scheduleRoundRobin exampleProcs 2).executionOrder =
      [⟨"P1", 0, 2⟩, ⟨"P2", 2, 4⟩, ⟨"P3", 4, 5⟩, ⟨"P1", 5, 7⟩,
        ⟨"P2", 7, 8⟩] ∧
    (∀ m ∈ (scheduleRoundRobin exampleProcs 2).processMetrics,
      (((scheduleRoundRobin exampleProcs 2).executionOrder.filter
        (fun b => b.processId == m.id)).getLast?.map (·.endTime)) =
        some m.completionTime) ∧
    (scheduleRoundRobin exampleProcs 2).processMetrics.map
      (fun m => (m.id, m.completionTime)) =
      [("P3", 5), ("P1", 7), ("P2", 8)] := by
  refine ⟨by decide, by decide, by decide⟩

/-- C6: the claim says a reversePriority flag reverses the comparison of the
cooperative Priority policy; in the code the caller passes the flag
(part_000 line 72) but schedulePriority's declaration takes only the process
list, so the flag is dropped: even with reversePriority = true the process
with the smallest numeric priority (P1 here) is scheduled first, where the
claim requires the largest (P2). -/
theorem C6_reverse_priority_dropped :
    (runScheduler [⟨"P1", 0, 1, some 1⟩, ⟨"P2", 0, 1, some 2⟩]
      SchedulingAlgorithm.Priority 2 true).toOption.map
        (fun r => r.executionOrder) =
      some [⟨"P1", 0, 1⟩, ⟨"P2", 1, 2⟩] ∧
    runScheduler [⟨"P1", 0, 1, some 1⟩, ⟨"P2", 0, 1, some 2⟩]
      SchedulingAlgorithm.Priority 2 true =
      Except.ok (schedulePriority [⟨"P1", 0, 1, some 1⟩,
        ⟨"P2", 0, 1, some 2⟩]) := by
  exact ⟨by decide, rfl⟩

/-- C7: SRTF (modelled from the spec, the source being absent from src)
preempts exactly when an eligible process has strictly smaller remainingTime
than the running process, equal remaining times favouring the running
process; on P1(0,4), P2(1,3) no preemption occurs at time 1, P1 completes at
4, and P2 runs [4,7). -/
theorem C7_srtf_preemption (sim : List SimProcess) (t : Nat) (rid : String)
    (r hd : SimProcess) (tl : List SimProcess)
    (helig : srtfElig sim t = hd :: tl)
    (hfind : (srtfElig sim t).find? (fun p => p.id == rid) = some r) :
    ((∀ x ∈ srtfElig sim t, r.remainingTime ≤ x.remainingTime) →
      srtfPick sim t (some rid) = some r) ∧
    ((firstMinRem hd tl).remainingTime < r.remainingTime →
      srtfPick sim t (some rid) = some (firstMinRem hd tl)) ∧
    (scheduleSRTF [⟨"P1", 0, 4, none⟩, ⟨"P2", 1, 3, none⟩]).executionOrder =
      [⟨"P1", 0, 4⟩, ⟨"P2", 4, 7⟩] := by
  rw [helig] at hfind
  refine ⟨?_, ?_, by decide⟩
  · intro hmin
    have hmem : firstMinRem hd tl ∈ srtfElig sim t := by
      rw [helig]
      exact firstMinRem_mem hd tl
    have hn : ¬ (firstMinRem hd tl).remainingTime < r.remainingTime :=
      not_lt.2 (hmin _ hmem)
    simp only [srtfPick, helig, hfind, hn, if_false]
  · intro hlt
    simp only [srtfPick, helig, hfind, hlt, if_true]

theorem C7_srtf_preemption_witness :
    srtfElig [⟨⟨"P1", 0, 4, none⟩, 3⟩, ⟨⟨"P2", 1, 3, none⟩, 3⟩] 1 =
      ⟨⟨"P1", 0, 4, none⟩, 3⟩ :: [⟨⟨"P2", 1, 3, none⟩, 3⟩] ∧
    (srtfElig [⟨⟨"P1", 0, 4, none⟩, 3⟩, ⟨⟨"P2", 1, 3, none⟩, 3⟩] 1).find?
      (fun p => p.id == "P1") = some ⟨⟨"P1", 0, 4, none⟩, 3⟩ ∧
    srtfPick [⟨⟨"P1", 0, 4, none⟩, 3⟩, ⟨⟨"P2", 1, 3, none⟩, 3⟩] 1
      (some "P1") = some ⟨⟨"P1", 0, 4, none⟩, 3⟩ ∧
    (scheduleSRTF [⟨"P1", 0, 4, none⟩, ⟨"P2", 1, 3, none⟩]).executionOrder =
      [⟨"P1", 0, 4⟩, ⟨"P2", 4, 7⟩] := by
  have h := C7_srtf_preemption
    [⟨⟨"P1", 0, 4, none⟩, 3⟩, ⟨⟨"P2", 1, 3, none⟩, 3⟩] 1 "P1"
    ⟨⟨"P1", 0, 4, none⟩, 3⟩ ⟨⟨"P1", 0, 4, none⟩, 3⟩
    [⟨⟨"P2", 1, 3, none⟩, 3⟩] (by decide) (by decide)
  exact ⟨by decide, by decide, h.1 (by decide), h.2.2⟩

/-- C8 counterexample: the claim says duplicate ids are detected before any
simulation state is created and no timeline or metrics are returned; in fact
Round-Robin on a duplicate-id set runs to completion and returns a full
result with one metrics entry per duplicate. -/
theorem C8_counterexample :
    runScheduler dupIdProcs SchedulingAlgorithm.RoundRobin 2 false =
      Except.ok (scheduleRoundRobin dupIdProcs 2) ∧
    (scheduleRoundRobin dupIdProcs 2).processMetrics.map (·.id) =
      ["A", "A"] ∧
    (scheduleRoundRobin dupIdProcs 2).executionOrder ≠ [] := by
  exact ⟨rfl, by decide, by decide⟩

/-- C8 amended: the caller rejects an empty process set and a missing
priority for the priority policies before any engine is invoked, returning
an error and no result; duplicate ids and non-positive quanta are not
validated anywhere — every quantum (including 0) is forwarded to the engine
unchecked, Round-Robin on duplicate ids produces a full result, the SJF and
Priority loops on duplicate ids never terminate, and the Round-Robin loop on
duplicate ids with quantum 0 never terminates. -/
theorem C8_amended (procs : List Process) (alg : SchedulingAlgorithm)
    (q : Nat) (rev : Bool) :
    (procs.length = 0 →
      runScheduler procs alg q rev = Except.error "No Processes") ∧
    (procs.length ≠ 0 → procs.any (fun p => p.priority.isNone) = true →
      runScheduler procs SchedulingAlgorithm.Priority q rev =
        Except.error "Missing Priority" ∧
      runScheduler procs SchedulingAlgorithm.PriorityP q rev =
        Except.error "Missing Priority") ∧
    (procs.length ≠ 0 →
      runScheduler procs SchedulingAlgorithm.RoundRobin q rev =
        Except.ok (scheduleRoundRobin procs q)) ∧
    ¬ sjfTerminates dupIdProcs ∧
    ¬ priorityTerminates dupIdProcs ∧
    ¬ rrTerminates dupIdProcs 0 ∧
    (scheduleRoundRobin dupIdProcs 2).processMetrics.map (·.id) =
      ["A", "A"] := by
  refine ⟨?_, ?_, ?_, sjf_dup_not_terminates, priority_dup_not_terminates,
    rr_zero_dup_not_terminates, by decide⟩
  · intro h
    unfold runScheduler
    rw [if_pos h]
  · intro h1 h2
    constructor <;>
      · unfold runScheduler
        rw [if_neg h1]
        simp [h2]
  · intro h
    unfold runScheduler
    rw [if_neg h]

theorem C8_amended_witness :
    (([] : List Process).length = 0 →
      runScheduler [] SchedulingAlgorithm.FCFS 2 false =
        Except.error "No Processes") ∧
    runScheduler [] SchedulingAlgorithm.FCFS 2 false =
      Except.error "No Processes" ∧
    ([(⟨"P1", 0, 1, none⟩ : Process)].length ≠ 0 ∧
      [(⟨"P1", 0, 1, none⟩ : Process)].any
        (fun p => p.priority.isNone) = true) ∧
    runScheduler [⟨"P1", 0, 1, none⟩] SchedulingAlgorithm.Priority 2 false =
      Except.error "Missing Priority" ∧
    runScheduler [⟨"P1", 0, 1, none⟩] SchedulingAlgorithm.PriorityP 2 false =
      Except.error "Missing Priority" ∧
    (dupIdProcs.length ≠ 0 ∧
      runScheduler dupIdProcs SchedulingAlgorithm.RoundRobin 0 false =
        Except.ok (scheduleRoundRobin dupIdProcs 0)) ∧
    ¬ sjfTerminates dupIdProcs ∧
    ¬ priorityTerminates dupIdProcs ∧
    ¬ rrTerminates dupIdProcs 0 :=
  ⟨(C8_amended [] SchedulingAlgorithm.FCFS 2 false).1,
    (C8_amended [] SchedulingAlgorithm.FCFS 2 false).1 rfl,
    ⟨by decide, by decide⟩,
    ((C8_amended [⟨"P1", 0, 1, none⟩] SchedulingAlgorithm.FCFS 2 false).2.1
      (by decide) (by decide)).1,
    ((C8_amended [⟨"P1", 0, 1, none⟩] SchedulingAlgorithm.FCFS 2 false).2.1
      (by decide) (by decide)).2,
    ⟨by decide,
      (C8_amended dupIdProcs SchedulingAlgorithm.FCFS 0 false).2.2.1
        (by decide)⟩,
    (C8_amended [] SchedulingAlgorithm.FCFS 2 false).2.2.2.1,
    (C8_amended [] SchedulingAlgorithm.FCFS 2 false).2.2.2.2.1,
    (C8_amended [] SchedulingAlgorithm.FCFS 2 false).2.2.2.2.2.1⟩

/-- C9: for every policy, the returned averageWaitingTime and
averageTurnaroundTime are the arithmetic means of waitingTime and
turnaroundTime over the entries of processMetrics, and on the empty process
set both averages are the NaN sentinel (embedded as `none`) rather than a
number. -/
theorem C9_average_means (procs : List Process) (q : Nat)
    (hnd : (procs.map (·.id)).Nodup) (hq : 1 ≤ q) : C9Concl procs q := by
  refine ⟨meansOK_FCFS procs, meansOK_SJF procs, meansOK_Priority procs,
    meansOK_RR procs q, meansOK_SRTF procs, meansOK_PP procs,
    rfl, rfl, rfl, rfl, rfl, rfl, rfl, rfl, rfl, rfl, fun rev => ⟨rfl, rfl⟩⟩

theorem C9_average_means_witness :
    ((exampleProcs.map (·.id)).Nodup ∧ 1 ≤ 2) ∧ C9Concl exampleProcs 2 :=
  ⟨⟨by decide, by decide⟩, C9_average_means exampleProcs 2 (by decide)
    (by decide)⟩

/-- C10: for every process list with arrivalTime ≥ 0, burstTime > 0 and
every quantum ≥ 1, the Round-Robin loop reaches its exit condition within
the computed iteration budget (the source loop terminates), every process
completes with exactly one ProcessMetrics entry per id, and with quantum 0
(the embedding of quantum ≤ 0) no iteration budget is ever enough — the
source loop never terminates, as the spec requires the caller to prevent. -/
theorem C10_rr_termination (procs : List Process) (q : Nat)
    (h : Preconds procs q) : C10Concl procs q := by
  obtain ⟨hne, hnd, hb, hq⟩ := h
  obtain ⟨eo₂, pm₂, heq, hres, hsums, hof, hss, hmet, hperm⟩ :=
    rrSchedule_good hnd hb hq
  refine ⟨?_, ?_, ?_, ?_⟩
  · rw [hres, heq]
    rfl
  · rw [hres]
    show pm₂.length = procs.length
    have hlen := hperm.length_eq
    rw [List.length_map, List.length_map] at hlen
    exact hlen
  · intro p hp
    rw [hres]
    show (pm₂.filter (fun m => m.id == p.id)).length = 1
    apply filter_metrics_id (hperm.nodup_iff.2 hnd)
    exact hperm.mem_iff.2 (List.mem_map_of_mem (·.id) hp)
  · rintro ⟨fuel, hsome⟩
    rw [rrLoop_zero_none ((sortByArrival procs).map initSim) ?_ fuel
      ((sortByArrival procs).map initSim) [] 0 [] [] (fun p hp => hp)
      (fun p hp => absurd hp (List.not_mem_nil p)) (Or.inl ?_)] at hsome
    · simp at hsome
    · intro p hp
      obtain ⟨p', hp', rfl⟩ := List.mem_map.1 hp
      exact hb p' ((sortByArrival_perm procs).mem_iff.1 hp')
    · intro hnil
      apply hne
      have := congrArg List.length hnil
      rw [List.length_map] at this
      have hlen := (sortByArrival_perm procs).length_eq
      rw [this] at hlen
      exact List.length_eq_zero.1 hlen.symm

theorem C10_rr_termination_witness :
    Preconds exampleProcs 2 ∧ C10Concl exampleProcs 2 :=
  ⟨by decide, C10_rr_termination exampleProcs 2 (by decide)⟩

end Schedulr
